import Mathlib

set_option maxHeartbeats 1000000

/-! Verification development for the UART register accessor emitted by
`src/fpga/uart_regs-1.0.4/gen_uart_regs.py`.  The definitions below are a
shallow embedding of the generated Python class `UartRegs` (the template in
`gen_python_code`, lines 180-512 of the generator): the framing codec of
`read_regs`/`write_regs`, the bit packing and range validation of
`write_regs`, the value extraction of `read_regs`, the signed display
conversion of `print_regs`, and the read-modify-write merge of
`read_back_missing_out_regs`. -/

/-- Protocol constant `READ_REQ = 0x0A`. -/
def READ_REQ : Nat := 0x0A

/-- Protocol constant `START_WRITE = 0x0B`. -/
def START_WRITE : Nat := 0x0B

/-- Protocol constant `END_WRITE = 0x0C`. -/
def END_WRITE : Nat := 0x0C

/-- Protocol constant `ESCAPE = 0x0D`. -/
def ESCAPE : Nat := 0x0D

/-- State of the byte-receive loop in `read_regs` (lines 258-261 of the
generated script): `prev_byte` starts as Python `None`, `receiving_data`
starts `True`, `escape_next` starts `False`, `data` starts empty. -/
structure DecState where
  prevByte : Option Nat
  receivingData : Bool
  escapeNext : Bool
  data : List Nat
deriving DecidableEq, Repr

/-- Initial decoder state of `read_regs` (lines 258-261). -/
def decInit : DecState := ⟨none, true, false, []⟩

/-- One iteration of the `while True` receive loop of `read_regs`
(lines 278-289).  The second component is `true` exactly when the `break`
on an unescaped `END_WRITE` fires. -/
def decodeStep (s : DecState) (byte : Nat) : DecState × Bool :=
  if byte = START_WRITE ∧ s.prevByte ≠ some ESCAPE then
    ({ s with receivingData := true, prevByte := some byte }, false)
  else if s.receivingData then
    if byte = END_WRITE ∧ s.escapeNext = false then
      ({ s with receivingData := false }, true)
    else if byte ≠ ESCAPE ∨ s.escapeNext then
      ({ s with data := s.data ++ [byte], escapeNext := false, prevByte := some byte }, false)
    else
      ({ s with escapeNext := true, prevByte := some byte }, false)
  else
    ({ s with prevByte := some byte }, false)

/-- Run of the receive loop over a byte stream: the accumulated payload is
returned at the `break`; an exhausted stream models the serial timeout
(`exit(1)` at line 271). -/
def decodeRun (s : DecState) : List Nat → Option (List Nat)
  | [] => none
  | b :: rest =>
    let st := decodeStep s b
    if st.2 then some st.1.data else decodeRun st.1 rest

/-- Byte stuffing of `write_regs` (lines 413-417): any byte equal to one of
the four control values gets an `ESCAPE` prepended. -/
def escapeBytes (payload : List Nat) : List Nat :=
  payload.flatMap fun b =>
    if b = READ_REQ ∨ b = START_WRITE ∨ b = END_WRITE ∨ b = ESCAPE then [ESCAPE, b] else [b]

/-- Frame produced by `write_regs` (lines 410-418): `START_WRITE`, the
stuffed payload, `END_WRITE`. -/
def encodeFrame (payload : List Nat) : List Nat :=
  START_WRITE :: (escapeBytes payload ++ [END_WRITE])

/-- Fueled helper for `natBits`; the fuel only bounds the recursion depth
(structural recursion keeps the definition kernel-reducible) and never runs
out when it is at least `n`. -/
def natBitsF : Nat → Nat → List Bool
  | _, 0 => [false]
  | _, 1 => [true]
  | 0, _ => []
  | fuel + 1, n => natBitsF fuel (n / 2) ++ [decide (n % 2 = 1)]

/-- Big-endian bit list of `n`, as Python `f"{n:b}"` (so `natBits 0 = [false]`). -/
def natBits (n : Nat) : List Bool := natBitsF n n

/-- Python `f"{n:0{w}b}"`: `natBits n` left-padded with zero bits to width `w`. -/
def padBits (w : Nat) (n : Nat) : List Bool :=
  List.replicate (w - (natBits n).length) false ++ natBits n

/-- Python `int(s, 2)` on a bit string, most significant bit first. -/
def bitsToNat (bits : List Bool) : Nat :=
  bits.foldl (fun acc b => 2 * acc + b.toNat) 0

/-- Chunking of the write bit string into bytes, as
`int(write_data_bits[i:i + 8], 2)` for `i in range(0, len, 8)`
(`write_regs` lines 413-414). -/
def bitsToBytes : List Bool → List Nat
  | [] => []
  | b0 :: b1 :: b2 :: b3 :: b4 :: b5 :: b6 :: b7 :: rest =>
    bitsToNat [b0, b1, b2, b3, b4, b5, b6, b7] :: bitsToBytes rest
  | rest => [bitsToNat rest]

/-- Python `"".join(f"{byte:08b}" for byte in bs)` (`read_regs` lines 299-300). -/
def bytesToBits (bs : List Nat) : List Bool :=
  bs.flatMap fun b => padBits 8 b

/-- Python `xs[-k:]` on lists: the whole list when `k = 0`, else the last
`k` elements. -/
def pyTail {α : Type} (k : Nat) (xs : List α) : List α :=
  if k = 0 then xs else xs.drop (xs.length - k)

/-- Register direction: `'in'` (device to host) or `'out'` (host to device). -/
inductive RMode where
  | input
  | output
deriving DecidableEq, Repr

/-- Register data type, from the generator's `unsigned`, `signed`,
`std_logic_vector`, `std_logic`. -/
inductive RType where
  | unsigned
  | signed
  | stdLogicVector
  | stdLogic
deriving DecidableEq, Repr

/-- One entry of the generated `registers` list: `(name, mode, length, type)`. -/
structure Reg where
  name : String
  mode : RMode
  length : Nat
  rtype : RType
deriving DecidableEq, Repr

/-- Sum of bit lengths of one direction (`read_regs` lines 243-244). -/
def sumLen (rs : List Reg) (d : RMode) : Nat :=
  ((rs.filter fun r => decide (r.mode = d)).map Reg.length).sum

/-- Region size in bits, padded to a byte multiple (`read_regs` lines 247-248). -/
def regionBits (rs : List Reg) (d : RMode) : Nat :=
  (sumLen rs d + 7) / 8 * 8

/-- Expected response payload size in bytes (`read_regs` line 251). -/
def expectedBytes (rs : List Reg) : Nat :=
  (regionBits rs .input + regionBits rs .output) / 8

/-- Extraction loop of `read_regs` (lines 305-316): the schema is iterated
in reverse, each register slices `length` bits at its direction's running
offset, and the slice is converted with `int(value, 2)`. -/
def extractLoop (inBits outBits : List Bool) : List Reg → Nat → Nat → List (String × Nat)
  | [], _, _ => []
  | r :: rest, si, so =>
    if r.mode = .input then
      (r.name, bitsToNat ((inBits.drop si).take r.length)) ::
        extractLoop inBits outBits rest (si + r.length) so
    else
      (r.name, bitsToNat ((outBits.drop so).take r.length)) ::
        extractLoop inBits outBits rest si (so + r.length)

/-- Value extraction of `read_regs` (lines 295-318) from a complete data
payload: out-region bytes first, then in-region bytes, each region turned
into a bit string with the same slicing as the source. -/
def regsValues (rs : List Reg) (data : List Nat) : List (String × Nat) :=
  let inLen := regionBits rs .input
  let outLen := regionBits rs .output
  let inBits := pyTail inLen (bytesToBits (pyTail (inLen / 8) data))
  let outBits := pyTail outLen (bytesToBits (data.take (outLen / 8)))
  extractLoop inBits outBits rs.reverse 0 0

/-- Failure conditions of the accessor script: the `ValueError` of
`write_regs` lines 392-396 (carrying the register name, its bit length and
the offending value), the timeout exit of `read_regs` line 271, the
`IOError` of `read_regs` lines 292-293, and the `parser.error` of the
command-line `WriteAction` (line 473). -/
inductive Err where
  | valueOutOfRange (name : String) (length : Nat) (value : Int) (isSigned : Bool)
  | readTimeout
  | frameLengthMismatch (got : Nat) (expected : Nat)
  | unknownRegister (name : String)
deriving DecidableEq, Repr

/-- Bit encoding of one register value (`write_regs` lines 398-401):
`value & ((1 << length) - 1)` for negative signed values (two's
complement), otherwise `f"{value:0{length}b}"`. -/
def valueBits (r : Reg) (v : Int) : List Bool :=
  if r.rtype = .signed ∧ v < 0 then
    padBits r.length (Int.land v ((2 : Int) ^ r.length - 1)).toNat
  else
    padBits r.length v.toNat

/-- Unsigned bit pattern that `write_regs` emits for a register value: the
value itself when nonnegative, the masked two's-complement pattern for a
negative signed value. -/
def patternOf (r : Reg) (v : Int) : Nat :=
  if r.rtype = .signed ∧ v < 0 then (Int.land v ((2 : Int) ^ r.length - 1)).toNat
  else v.toNat

/-- Range-check condition of `write_regs` lines 391-396: the disjunction
that triggers the `ValueError`. -/
def outOfRange (r : Reg) (v : Int) : Prop :=
  if r.rtype = .signed then v ≥ 2 ^ (r.length - 1) ∨ v < -((2 : Int) ^ (r.length - 1))
  else v < 0 ∨ v ≥ 2 ^ r.length

instance (r : Reg) (v : Int) : Decidable (outOfRange r v) :=
  if h : r.rtype = .signed then
    decidable_of_iff (v ≥ 2 ^ (r.length - 1) ∨ v < -((2 : Int) ^ (r.length - 1)))
      (by simp [outOfRange, h])
  else
    decidable_of_iff (v < 0 ∨ v ≥ 2 ^ r.length) (by simp [outOfRange, h])

instance {ε α : Type} [DecidableEq ε] [DecidableEq α] : DecidableEq (Except ε α) := fun x y =>
  match x, y with
  | .ok a, .ok b => if h : a = b then isTrue (h ▸ rfl) else isFalse (fun hc => h (Except.ok.inj hc))
  | .error a, .error b =>
    if h : a = b then isTrue (h ▸ rfl) else isFalse (fun hc => h (Except.error.inj hc))
  | .ok _, .error _ => isFalse (fun hc => Except.noConfusion hc)
  | .error _, .ok _ => isFalse (fun hc => Except.noConfusion hc)

/-- Validation and bit-building loop of `write_regs` (lines 386-403),
processing `reversed(registers)`.  The source handles the `out` direction;
the direction is a parameter so that the identical packing rule can also be
stated for the `in` region, which the device side packs symmetrically. -/
def buildBitsLoop (d : RMode) (vals : String → Int) : List Reg → Except Err (List Bool)
  | [] => .ok []
  | r :: rest =>
    if r.mode = d then
      let value := vals r.name
      if r.rtype = .signed then
        if value ≥ 2 ^ (r.length - 1) ∨ value < -((2 : Int) ^ (r.length - 1)) then
          .error (.valueOutOfRange r.name r.length value true)
        else
          match buildBitsLoop d vals rest with
          | .error e => .error e
          | .ok restBits => .ok (valueBits r value ++ restBits)
      else
        if value < 0 ∨ value ≥ 2 ^ r.length then
          .error (.valueOutOfRange r.name r.length value false)
        else
          match buildBitsLoop d vals rest with
          | .error e => .error e
          | .ok restBits => .ok (valueBits r value ++ restBits)
    else buildBitsLoop d vals rest

/-- Packed region bytes of `write_regs` (lines 385-414): the bit string of
the reversed schema, zero-padded to a byte boundary (lines 406-407) and
chunked into bytes (lines 413-414). -/
def packOut (rs : List Reg) (d : RMode) (vals : String → Int) : Except Err (List Nat) :=
  match buildBitsLoop d vals rs.reverse with
  | .error e => .error e
  | .ok bits => .ok (bitsToBytes (bits ++ List.replicate ((8 - bits.length % 8) % 8) false))

/-- Read transaction of `read_regs` (lines 238-318): `READ_REQ` is sent,
the response stream is decoded (an exhausted stream models the timeout
`exit(1)`), the payload length is validated against the schema (lines
292-293), and the register values are extracted. -/
def readRegsRun (rs : List Reg) (incoming : List Nat) : Except Err (List (String × Nat)) :=
  match decodeRun decInit incoming with
  | none => .error .readTimeout
  | some data =>
    if data.length ≠ expectedBytes rs then
      .error (.frameLengthMismatch data.length (expectedBytes rs))
    else .ok (regsValues rs data)

/-- Association list standing for a Python dict; entries keep insertion order. -/
abbrev Dict := List (String × Int)

/-- First-match lookup on an association list (Python `d[k]`, `k in d`). -/
def dlookup {β : Type} : List (String × β) → String → Option β
  | [], _ => none
  | (k, v) :: rest, n => if k = n then some v else dlookup rest n

/-- Python `d[k] = v`: overwrite in place when the key exists, else append. -/
def setKey : Dict → String → Int → Dict
  | [], k, v => [(k, v)]
  | (k1, v1) :: rest, k, v => if k1 = k then (k, v) :: rest else (k1, v1) :: setKey rest k v

/-- Store of dict objects, indexed by allocation order; models Python
object identity so that mutation of one dict can be told apart from
mutation of another. -/
abbrev Heap := List Dict

/-- Dict object held at address `a`. -/
def heapGet (h : Heap) (a : Nat) : Dict := h.getD a []

/-- Replacement of the dict object at address `a`. -/
def heapSet (h : Heap) (a : Nat) (d : Dict) : Heap := h.set a d

/-- Python `write_values.copy()` (`read_back_missing_out_regs` line 438): a
fresh object with the same entries, at a fresh address. -/
def dictCopy (h : Heap) (a : Nat) : Heap × Nat := (h ++ [heapGet h a], h.length)

/-- Python `h[a][k] = v`: in-place update of the dict object at `a`. -/
def dictAssign (h : Heap) (a : Nat) (k : String) (v : Int) : Heap :=
  heapSet h a (setKey (heapGet h a) k v)

/-- Names of the out-mode registers, as computed at line 441 and line 470. -/
def outNames (rs : List Reg) : List String :=
  (rs.filter fun r => decide (r.mode = .output)).map Reg.name

/-- Model of `read_back_missing_out_regs` (lines 433-455): copy the
caller's dict, collect the out-mode registers missing from the copy and, if
any, run a full read (sending `READ_REQ`) and fill them in on the copy.
Returns the heap, the copy's address, the bytes sent, and the outcome.
The `getD 0` can never supply its default: `regsValues` yields an entry for
every register name, and the missing names are register names. -/
def readBackMissing (rs : List Reg) (h : Heap) (a : Nat) (incoming : List Nat) :
    Heap × Nat × List Nat × Except Err Unit :=
  let h1 := (dictCopy h a).1
  let ca := (dictCopy h a).2
  let missing :=
    (rs.filter fun r => decide (r.mode = .output) && (dlookup (heapGet h1 ca) r.name).isNone).map
      Reg.name
  if missing.isEmpty then (h1, ca, [], .ok ())
  else
    match readRegsRun rs incoming with
    | .error e => (h1, ca, [READ_REQ], .error e)
    | .ok current =>
      (missing.foldl (fun h2 n => dictAssign h2 ca n (((dlookup current n).getD 0 : Nat) : Int)) h1,
        ca, [READ_REQ], .ok ())

/-- Outcome of a `write_regs` call: the final heap, every byte written to
the serial port in order, and the result. -/
structure WriteOutcome where
  heap : Heap
  sent : List Nat
  result : Except Err Unit
deriving DecidableEq, Repr

/-- Model of `write_regs` (lines 375-431): complete the value set via
`read_back_missing_out_regs`, validate and pack the out-region bits, and
send the escaped frame.  A raised exception propagates before any further
serial bytes are written. -/
def writeRegsRun (rs : List Reg) (h : Heap) (a : Nat) (incoming : List Nat) : WriteOutcome :=
  let rb := readBackMissing rs h a incoming
  match rb.2.2.2 with
  | .error e => ⟨rb.1, rb.2.2.1, .error e⟩
  | .ok _ =>
    match packOut rs .output (fun n => (dlookup (heapGet rb.1 rb.2.1) n).getD 0) with
    | .error e => ⟨rb.1, rb.2.2.1, .error e⟩
    | .ok bytes => ⟨rb.1, rb.2.2.1 ++ encodeFrame bytes, .ok ()⟩

/-- Name validation of the command line `WriteAction` (generated lines
469-473): every supplied name must be an out-mode register name;
`parser.error` fires during argument parsing, before any serial port is
opened. -/
def cliValidateWriteNames (rs : List Reg) : Dict → Except Err Unit
  | [] => .ok ()
  | (n, _) :: rest =>
    if n ∈ outNames rs then cliValidateWriteNames rs rest else .error (.unknownRegister n)

/-- Int-val column of `print_regs` (line 358):
`value - (1 << bit_length) if value & (1 << (bit_length - 1)) else value`. -/
def printIntVal (bitLength : Nat) (value : Nat) : Int :=
  if value &&& 2 ^ (bitLength - 1) ≠ 0 then (value : Int) - 2 ^ bitLength else (value : Int)

/-- Bit string produced by the building loop of `write_regs` when every
value passes validation: the concatenation, in reversed-schema order, of
the `valueBits` of each register of the direction. -/
def packBits (d : RMode) (vals : String → Int) : List Reg → List Bool
  | [] => []
  | r :: rest => (if r.mode = d then valueBits r (vals r.name) else []) ++ packBits d vals rest

/-- Placement of one direction's region bytes inside a full read payload:
`read_regs` takes the out region from the leading bytes and the in region
from the trailing bytes, so the other region is filled with zero bytes
here. -/
def regionData (rs : List Reg) (d : RMode) (bytes : List Nat) : List Nat :=
  match d with
  | .output => bytes ++ List.replicate (regionBits rs .input / 8) 0
  | .input => List.replicate (regionBits rs .output / 8) 0 ++ bytes

/-! Arithmetic facts about the bit-string utilities. -/

theorem bitsToNat_go (bs : List Bool) (acc : Nat) :
    bs.foldl (fun a b => 2 * a + b.toNat) acc = acc * 2 ^ bs.length + bitsToNat bs := by
  induction bs generalizing acc with
  | nil => simp [bitsToNat]
  | cons b rest ih =>
    simp only [List.foldl_cons, bitsToNat] at ih ⊢
    rw [ih (2 * acc + b.toNat), ih (2 * 0 + b.toNat)]
    simp only [List.length_cons, Nat.pow_succ]
    ring

theorem bitsToNat_append (xs ys : List Bool) :
    bitsToNat (xs ++ ys) = bitsToNat xs * 2 ^ ys.length + bitsToNat ys := by
  unfold bitsToNat
  rw [List.foldl_append]
  exact bitsToNat_go ys _

theorem bitsToNat_cons (b : Bool) (bs : List Bool) :
    bitsToNat (b :: bs) = b.toNat * 2 ^ bs.length + bitsToNat bs := by
  have h := bitsToNat_append [b] bs
  have hb : bitsToNat [b] = b.toNat := by cases b <;> simp [bitsToNat]
  rw [hb] at h
  simpa using h

theorem bitsToNat_lt (bs : List Bool) : bitsToNat bs < 2 ^ bs.length := by
  induction bs with
  | nil => simp [bitsToNat]
  | cons b rest ih =>
    rw [bitsToNat_cons]
    cases b <;>
      simp only [List.length_cons, Nat.pow_succ, Bool.toNat_false, Bool.toNat_true] <;> omega

theorem bitsToNat_replicate_false (k : Nat) : bitsToNat (List.replicate k false) = 0 := by
  induction k with
  | zero => simp [bitsToNat]
  | succ k ih => rw [List.replicate_succ, bitsToNat_cons]; simp [ih]

theorem natBitsF_toNat : ∀ fuel n, n ≤ fuel → bitsToNat (natBitsF fuel n) = n := by
  intro fuel
  induction fuel with
  | zero =>
    intro n hn
    interval_cases n
    simp [natBitsF, bitsToNat]
  | succ fuel ih =>
    intro n hn
    match n with
    | 0 => simp [natBitsF, bitsToNat]
    | 1 => simp [natBitsF, bitsToNat]
    | (k + 2) =>
      rw [show natBitsF (fuel + 1) (k + 2) =
          natBitsF fuel ((k + 2) / 2) ++ [decide ((k + 2) % 2 = 1)] from rfl]
      rw [bitsToNat_append, ih ((k + 2) / 2) (by omega)]
      have hb : bitsToNat [decide ((k + 2) % 2 = 1)] = (decide ((k + 2) % 2 = 1)).toNat := by
        simp [bitsToNat]
      rw [hb]
      simp only [List.length_singleton, pow_one]
      rcases Nat.mod_two_eq_zero_or_one (k + 2) with h | h <;> simp [h] <;> omega

theorem natBits_toNat (n : Nat) : bitsToNat (natBits n) = n :=
  natBitsF_toNat n n le_rfl

theorem natBitsF_length : ∀ fuel n w, n ≤ fuel → 1 ≤ w → n < 2 ^ w →
    (natBitsF fuel n).length ≤ w := by
  intro fuel
  induction fuel with
  | zero =>
    intro n w hn hw _
    interval_cases n
    simpa [natBitsF] using hw
  | succ fuel ih =>
    intro n w hn hw hlt
    match n with
    | 0 => simpa [natBitsF] using hw
    | 1 => simpa [natBitsF] using hw
    | (k + 2) =>
      rw [show natBitsF (fuel + 1) (k + 2) =
          natBitsF fuel ((k + 2) / 2) ++ [decide ((k + 2) % 2 = 1)] from rfl]
      rw [List.length_append, List.length_singleton]
      have hw2 : 2 ≤ w := by
        rcases Nat.lt_or_ge w 2 with hc | hc
        · have hw1 : w = 1 := by omega
          rw [hw1, pow_one] at hlt
          omega
        · exact hc
      have hp : 2 ^ w = 2 ^ (w - 1) * 2 := by
        rw [← Nat.pow_succ]
        congr 1
        omega
      have hdiv : (k + 2) / 2 < 2 ^ (w - 1) := by omega
      have hlen := ih ((k + 2) / 2) (w - 1) (by omega) (by omega) hdiv
      omega

theorem natBits_length_le (n w : Nat) (hw : 1 ≤ w) (h : n < 2 ^ w) :
    (natBits n).length ≤ w :=
  natBitsF_length n n w le_rfl hw h

theorem padBits_toNat (w n : Nat) : bitsToNat (padBits w n) = n := by
  unfold padBits
  rw [bitsToNat_append, bitsToNat_replicate_false, natBits_toNat]
  simp

theorem padBits_length (w n : Nat) (hw : 1 ≤ w) (h : n < 2 ^ w) :
    (padBits w n).length = w := by
  unfold padBits
  rw [List.length_append, List.length_replicate]
  have := natBits_length_le n w hw h
  omega

theorem bitsToNat_inj : ∀ (a b : List Bool), a.length = b.length →
    bitsToNat a = bitsToNat b → a = b := by
  intro a
  induction a with
  | nil =>
    intro b h _
    cases b with
    | nil => rfl
    | cons y ys => simp at h
  | cons x xs ih =>
    intro b hlen heq
    cases b with
    | nil => simp at hlen
    | cons y ys =>
      rw [bitsToNat_cons, bitsToNat_cons] at heq
      have hl : xs.length = ys.length := by simpa using hlen
      rw [hl] at heq
      have hx := bitsToNat_lt xs
      have hy := bitsToNat_lt ys
      rw [hl] at hx
      have hxy : x = y := by
        cases x <;> cases y <;>
          simp only [Bool.toNat_false, Bool.toNat_true, Nat.zero_mul, Nat.one_mul,
            Nat.zero_add] at heq <;> first | rfl | omega
      subst hxy
      have htail : bitsToNat xs = bitsToNat ys := by omega
      rw [ih ys hl htail]

theorem padBits_bitsToNat (bs : List Bool) (h : 1 ≤ bs.length) :
    padBits bs.length (bitsToNat bs) = bs := by
  apply bitsToNat_inj
  · exact padBits_length _ _ h (bitsToNat_lt bs)
  · rw [padBits_toNat]

theorem bytesToBits_cons (x : Nat) (l : List Nat) :
    bytesToBits (x :: l) = padBits 8 x ++ bytesToBits l := by
  simp [bytesToBits]

theorem bitsToBytes_length (bs : List Bool) (h : bs.length % 8 = 0) :
    (bitsToBytes bs).length = bs.length / 8 := by
  induction bs using bitsToBytes.induct with
  | case1 => simp [bitsToBytes]
  | case2 b0 b1 b2 b3 b4 b5 b6 b7 rest ih =>
    rw [show bitsToBytes (b0 :: b1 :: b2 :: b3 :: b4 :: b5 :: b6 :: b7 :: rest) =
        bitsToNat [b0, b1, b2, b3, b4, b5, b6, b7] :: bitsToBytes rest from rfl]
    simp only [List.length_cons] at h ⊢
    rw [ih (by omega)]
    omega
  | case3 rest h1 h2 =>
    rcases rest with _ | ⟨a0, _ | ⟨a1, _ | ⟨a2, _ | ⟨a3, _ | ⟨a4, _ | ⟨a5, _ | ⟨a6, _ | ⟨a7, t⟩⟩⟩⟩⟩⟩⟩⟩
    · exact absurd rfl h1
    · simp only [List.length_cons, List.length_nil] at h; omega
    · simp only [List.length_cons, List.length_nil] at h; omega
    · simp only [List.length_cons, List.length_nil] at h; omega
    · simp only [List.length_cons, List.length_nil] at h; omega
    · simp only [List.length_cons, List.length_nil] at h; omega
    · simp only [List.length_cons, List.length_nil] at h; omega
    · simp only [List.length_cons, List.length_nil] at h; omega
    · exact absurd rfl (h2 a0 a1 a2 a3 a4 a5 a6 a7 t)

theorem bytesToBits_bitsToBytes (bs : List Bool) (h : bs.length % 8 = 0) :
    bytesToBits (bitsToBytes bs) = bs := by
  induction bs using bitsToBytes.induct with
  | case1 => simp [bitsToBytes, bytesToBits]
  | case2 b0 b1 b2 b3 b4 b5 b6 b7 rest ih =>
    rw [show bitsToBytes (b0 :: b1 :: b2 :: b3 :: b4 :: b5 :: b6 :: b7 :: rest) =
        bitsToNat [b0, b1, b2, b3, b4, b5, b6, b7] :: bitsToBytes rest from rfl]
    rw [bytesToBits_cons]
    simp only [List.length_cons] at h
    rw [ih (by omega)]
    have hp := padBits_bitsToNat [b0, b1, b2, b3, b4, b5, b6, b7] (by simp)
    simp only [List.length_cons, List.length_nil] at hp
    rw [show (0 : Nat) + 1 + 1 + 1 + 1 + 1 + 1 + 1 + 1 = 8 from rfl] at hp
    rw [hp]
    simp
  | case3 rest h1 h2 =>
    rcases rest with _ | ⟨a0, _ | ⟨a1, _ | ⟨a2, _ | ⟨a3, _ | ⟨a4, _ | ⟨a5, _ | ⟨a6, _ | ⟨a7, t⟩⟩⟩⟩⟩⟩⟩⟩
    · exact absurd rfl h1
    · simp only [List.length_cons, List.length_nil] at h; omega
    · simp only [List.length_cons, List.length_nil] at h; omega
    · simp only [List.length_cons, List.length_nil] at h; omega
    · simp only [List.length_cons, List.length_nil] at h; omega
    · simp only [List.length_cons, List.length_nil] at h; omega
    · simp only [List.length_cons, List.length_nil] at h; omega
    · simp only [List.length_cons, List.length_nil] at h; omega
    · exact absurd rfl (h2 a0 a1 a2 a3 a4 a5 a6 a7 t)

/-! Behaviour of the receive state machine. -/

theorem decodeRun_cons (s : DecState) (b : Nat) (rest : List Nat) :
    decodeRun s (b :: rest) =
      if (decodeStep s b).2 then some (decodeStep s b).1.data
      else decodeRun (decodeStep s b).1 rest := rfl

theorem decodeRun_stuffed (p : List Nat) : ∀ (prev : Option Nat) (d : List Nat),
    decodeRun ⟨prev, true, false, d⟩ (escapeBytes p ++ [END_WRITE]) = some (d ++ p) := by
  induction p with
  | nil =>
    intro prev d
    simp [escapeBytes, decodeRun, decodeStep, END_WRITE, START_WRITE]
  | cons b rest ih =>
    intro prev d
    by_cases hb : b = READ_REQ ∨ b = START_WRITE ∨ b = END_WRITE ∨ b = ESCAPE
    · have he : escapeBytes (b :: rest) = ESCAPE :: b :: escapeBytes rest := by
        simp only [escapeBytes, List.flatMap_cons, if_pos hb]
        rfl
      rw [he, List.cons_append, List.cons_append, decodeRun_cons]
      have hstep1 : decodeStep ⟨prev, true, false, d⟩ ESCAPE = (⟨some ESCAPE, true, true, d⟩, false) := by
        simp [decodeStep, ESCAPE, START_WRITE, END_WRITE]
      rw [hstep1]
      simp only [Bool.false_eq_true, if_false]
      rw [decodeRun_cons]
      have hstep2 : decodeStep ⟨some ESCAPE, true, true, d⟩ b = (⟨some b, true, false, d ++ [b]⟩, false) := by
        simp [decodeStep]
      rw [hstep2]
      simp only [Bool.false_eq_true, if_false]
      rw [ih (some b) (d ++ [b])]
      simp
    · push_neg at hb
      obtain ⟨hb1, hb2, hb3, hb4⟩ := hb
      have he : escapeBytes (b :: rest) = b :: escapeBytes rest := by
        simp only [escapeBytes, List.flatMap_cons, if_neg (by tauto :
          ¬(b = READ_REQ ∨ b = START_WRITE ∨ b = END_WRITE ∨ b = ESCAPE))]
        rfl
      rw [he, List.cons_append, decodeRun_cons]
      have hstep : decodeStep ⟨prev, true, false, d⟩ b = (⟨some b, true, false, d ++ [b]⟩, false) := by
        simp [decodeStep, hb2, hb3, hb4]
      rw [hstep]
      simp only [Bool.false_eq_true, if_false]
      rw [ih (some b) (d ++ [b])]
      simp

theorem escapeBytes_plain (bs : List Nat)
    (h : ∀ b ∈ bs, ¬(b = READ_REQ ∨ b = START_WRITE ∨ b = END_WRITE ∨ b = ESCAPE)) :
    escapeBytes bs = bs := by
  induction bs with
  | nil => rfl
  | cons b rest ih =>
    have hr := ih fun x hx => h x (List.mem_cons_of_mem _ hx)
    simp only [escapeBytes, List.flatMap_cons, if_neg (h b (List.mem_cons_self _ _))] at hr ⊢
    rw [hr]
    rfl

/-- Claim C2: feeding the encoder's output (START_WRITE, then each payload
byte with an ESCAPE prepended when the byte equals a control value, then
END_WRITE) into the decoder state machine yields exactly the original
payload, for every payload byte sequence, including ones containing the
four control byte values. -/
theorem c2_decode_of_encode (payload : List Nat) :
    decodeRun decInit (encodeFrame payload) = some payload := by
  unfold encodeFrame decInit
  rw [decodeRun_cons]
  have hstep : decodeStep ⟨none, true, false, []⟩ START_WRITE =
      (⟨some START_WRITE, true, false, []⟩, false) := by
    simp [decodeStep, START_WRITE, ESCAPE, END_WRITE]
  rw [hstep]
  simp only [Bool.false_eq_true, if_false]
  simpa using decodeRun_stuffed payload (some START_WRITE) []

/-- Claim C5 counterexample: the stream START_WRITE, 0x05, START_WRITE,
0x01, END_WRITE decodes to the payload [0x05, 0x01], not [0x01]: the second
START_WRITE does not clear the partially accumulated payload. -/
theorem c5_counterexample :
    decodeRun decInit [0x0B, 0x05, 0x0B, 0x01, 0x0C] = some [0x05, 0x01] ∧
    decodeRun decInit [0x0B, 0x05, 0x0B, 0x01, 0x0C] ≠ some [0x01] := by decide

/-- Claim C5 (amended): receiving START_WRITE while the previous byte is
not ESCAPE sets the decoder to the receiving state but leaves the
accumulated payload intact, so START_WRITE, 0x05, START_WRITE, 0x01,
END_WRITE yields [0x05, 0x01], while START_WRITE, START_WRITE, 0x01,
END_WRITE yields [0x01]. -/
theorem c5_amended :
    (∀ s : DecState, s.prevByte ≠ some ESCAPE →
      decodeStep s START_WRITE = ({ s with receivingData := true, prevByte := some START_WRITE }, false)) ∧
    decodeRun decInit [0x0B, 0x05, 0x0B, 0x01, 0x0C] = some [0x05, 0x01] ∧
    decodeRun decInit [0x0B, 0x0B, 0x01, 0x0C] = some [0x01] := by
  refine ⟨?_, by decide, by decide⟩
  intro s hs
  unfold decodeStep
  rw [if_pos ⟨rfl, hs⟩]

theorem c5_amended_witness :
    decodeStep ⟨some 5, true, false, [5]⟩ START_WRITE =
      (⟨some START_WRITE, true, false, [5]⟩, false) :=
  c5_amended.1 ⟨some 5, true, false, [5]⟩ (by decide)

/-- Claim C6 counterexample: the byte 0x05 arriving before any START_WRITE
is returned in the payload, and the END_WRITE before any START_WRITE
terminates the frame instead of being ignored. -/
theorem c6_counterexample :
    decodeRun decInit [0x05, 0x0C] = some [0x05] ∧
    (0x05 : Nat) ∈ (decodeRun decInit [0x05, 0x0C]).getD [] ∧
    decodeRun decInit [0x05, 0x0C] ≠ none := by decide

/-- Claim C6 (amended): the decoder does not start in an AWAITING_START
state: `receiving_data` is initially true, so bytes arriving before any
START_WRITE are accumulated into the payload, and an END_WRITE before any
START_WRITE terminates the frame returning exactly those bytes. -/
theorem c6_amended :
    decInit.receivingData = true ∧
    ∀ bs : List Nat, (∀ b ∈ bs, ¬(b = READ_REQ ∨ b = START_WRITE ∨ b = END_WRITE ∨ b = ESCAPE)) →
      decodeRun decInit (bs ++ [END_WRITE]) = some bs := by
  refine ⟨rfl, ?_⟩
  intro bs h
  have hrun := decodeRun_stuffed bs none []
  rw [escapeBytes_plain bs h] at hrun
  simpa [decInit] using hrun

theorem c6_amended_witness :
    decodeRun decInit ([0x05] ++ [END_WRITE]) = some [0x05] :=
  c6_amended.2 [0x05] (by decide)

/-! Two's-complement arithmetic behind `value & ((1 << length) - 1)`. -/

theorem ldiff_mask (l : Nat) : ∀ m, m < 2 ^ l → Nat.ldiff (2 ^ l - 1) m = 2 ^ l - 1 - m := by
  induction l with
  | zero =>
    intro m hm
    interval_cases m
    simp [Nat.ldiff]
  | succ l ih =>
    intro m hm
    have h2 : 1 ≤ 2 ^ l := Nat.one_le_two_pow
    have hmask : 2 ^ (l + 1) - 1 = Nat.bit true (2 ^ l - 1) := by
      rw [Nat.bit_val]
      simp only [Nat.pow_succ, Bool.toNat_true]
      omega
    have hm2 : m = Nat.bit (decide (m % 2 = 1)) (m / 2) := by
      rw [← Nat.shiftRight_one, Nat.bit_decide_mod_two_eq_one_shiftRight_one]
    have hdiv : m / 2 < 2 ^ l := by
      rw [Nat.pow_succ] at hm
      omega
    rw [hmask, hm2, Nat.ldiff_bit, ih (m / 2) hdiv]
    rcases Nat.mod_two_eq_zero_or_one m with h | h
    · simp only [h, Nat.bit_val, Nat.pow_succ, decide_eq_true_eq]
      norm_num
      omega
    · simp only [h, Nat.bit_val, Nat.pow_succ, decide_eq_true_eq]
      norm_num
      omega

theorem natCast_two_pow (l : Nat) : (((2 : Nat) ^ l : Nat) : Int) = (2 : Int) ^ l := by
  push_cast
  ring

theorem int_mask_cast (l : Nat) : ((2 : Int) ^ l - 1) = Int.ofNat (2 ^ l - 1) := by
  have h2 : 1 ≤ 2 ^ l := Nat.one_le_two_pow
  rw [Int.ofNat_eq_coe, Nat.cast_sub h2, natCast_two_pow]
  simp

/-- Python's `v & ((1 << l) - 1)` on a negative `v` in range yields the
two's-complement residue `v + 2^l`. -/
theorem int_land_mask (l : Nat) (v : Int) (h0 : -((2 : Int) ^ l) ≤ v) (h1 : v < 0) :
    Int.land v ((2 : Int) ^ l - 1) = v + 2 ^ l := by
  cases v with
  | ofNat n =>
    rw [Int.ofNat_eq_coe] at h1
    omega
  | negSucc m =>
    have h2 : 1 ≤ 2 ^ l := Nat.one_le_two_pow
    have hm : m < 2 ^ l := by
      rw [Int.negSucc_eq] at h0
      have hc := natCast_two_pow l
      omega
    rw [int_mask_cast]
    have hland : Int.land (Int.negSucc m) (Int.ofNat (2 ^ l - 1)) =
        Int.ofNat (Nat.ldiff (2 ^ l - 1) m) := rfl
    rw [hland, ldiff_mask l m hm, Int.negSucc_eq, Int.ofNat_eq_coe]
    have hc := natCast_two_pow l
    omega

/-! Properties of the per-register value encoding. -/

theorem valueBits_toNat (r : Reg) (v : Int) : bitsToNat (valueBits r v) = patternOf r v := by
  unfold valueBits patternOf
  by_cases hc : r.rtype = .signed ∧ v < 0
  · rw [if_pos hc, if_pos hc, padBits_toNat]
  · rw [if_neg hc, if_neg hc, padBits_toNat]

theorem patternOf_lt (r : Reg) (v : Int) (h1 : 1 ≤ r.length) (h : ¬ outOfRange r v) :
    patternOf r v < 2 ^ r.length := by
  have hpow : (2 : Int) ^ r.length = 2 ^ (r.length - 1) * 2 := by
    rw [← pow_succ]
    congr 1
    omega
  have hc := natCast_two_pow r.length
  have hpos : (0 : Int) < 2 ^ (r.length - 1) := by positivity
  unfold outOfRange at h
  unfold patternOf
  by_cases hs : r.rtype = .signed
  · rw [if_pos hs] at h
    push_neg at h
    obtain ⟨hlt, hge⟩ := h
    by_cases hv : v < 0
    · rw [if_pos ⟨hs, hv⟩]
      rw [int_land_mask r.length v (by omega) hv]
      omega
    · rw [if_neg (by tauto)]
      omega
  · rw [if_neg hs] at h
    push_neg at h
    obtain ⟨h0, hlt⟩ := h
    rw [if_neg (by tauto)]
    omega

theorem patternOf_nonneg (r : Reg) (v : Int) (h : 0 ≤ v) : (patternOf r v : Int) = v := by
  unfold patternOf
  rw [if_neg (by rintro ⟨_, hv⟩; omega)]
  omega

theorem patternOf_neg (r : Reg) (v : Int) (hs : r.rtype = .signed) (hv : v < 0)
    (hge : -((2 : Int) ^ r.length) ≤ v) :
    (patternOf r v : Int) = v + 2 ^ r.length := by
  unfold patternOf
  rw [if_pos ⟨hs, hv⟩, int_land_mask r.length v hge hv]
  have hc := natCast_two_pow r.length
  omega

theorem valueBits_length (r : Reg) (v : Int) (h1 : 1 ≤ r.length)
    (h2 : patternOf r v < 2 ^ r.length) : (valueBits r v).length = r.length := by
  unfold valueBits
  unfold patternOf at h2
  by_cases hc : r.rtype = .signed ∧ v < 0
  · rw [if_pos hc] at h2 ⊢
    exact padBits_length _ _ h1 h2
  · rw [if_neg hc] at h2 ⊢
    exact padBits_length _ _ h1 h2

/-- Claim C3: for the schema declaring, in order, a 1-bit out register a
and an 8-bit out register b, packing the out direction with a = 1 and
b = 0xFF produces exactly the two bytes [0xFF, 0x80]: b's eight bits sit in
the most-significant positions, a in the next bit down, and the seven
padding bits are zero. -/
theorem c3_concrete_pack :
    packOut [⟨"a", .output, 1, .stdLogic⟩, ⟨"b", .output, 8, .stdLogicVector⟩] .output
      (fun n => if n = "a" then 1 else 0xFF) = .ok [0xFF, 0x80] := by decide

/-! Structural lemmas about lookups, region sizes and the packing loop. -/

theorem dlookup_cons_self {β : Type} (n : String) (v : β) (rest : List (String × β)) :
    dlookup ((n, v) :: rest) n = some v := by
  simp [dlookup]

theorem dlookup_cons_ne {β : Type} (k n : String) (v : β) (rest : List (String × β))
    (h : k ≠ n) : dlookup ((k, v) :: rest) n = dlookup rest n := by
  simp [dlookup, h]

theorem sumLen_cons (r : Reg) (rest : List Reg) (d : RMode) :
    sumLen (r :: rest) d = (if r.mode = d then r.length else 0) + sumLen rest d := by
  unfold sumLen
  rw [List.filter_cons]
  by_cases h : r.mode = d
  · simp [h]
  · simp [h]

theorem sumLen_reverse (rs : List Reg) (d : RMode) : sumLen rs.reverse d = sumLen rs d := by
  unfold sumLen
  rw [List.filter_reverse, List.map_reverse, List.sum_reverse]

theorem packBits_cons (d : RMode) (vals : String → Int) (r : Reg) (rest : List Reg) :
    packBits d vals (r :: rest) =
      (if r.mode = d then valueBits r (vals r.name) else []) ++ packBits d vals rest := rfl

theorem packBits_length (d : RMode) (vals : String → Int) :
    ∀ l : List Reg,
      (∀ r ∈ l, r.mode = d → 1 ≤ r.length ∧ patternOf r (vals r.name) < 2 ^ r.length) →
      (packBits d vals l).length = sumLen l d := by
  intro l
  induction l with
  | nil =>
    intro _
    simp [packBits, sumLen]
  | cons r rest ih =>
    intro h
    rw [packBits_cons, List.length_append, sumLen_cons,
      ih fun x hx hm => h x (List.mem_cons_of_mem _ hx) hm]
    by_cases hm : r.mode = d
    · obtain ⟨h1, h2⟩ := h r (List.mem_cons_self _ _) hm
      rw [if_pos hm, if_pos hm, valueBits_length r _ h1 h2]
    · rw [if_neg hm, if_neg hm]
      simp

theorem buildBitsLoop_ok (d : RMode) (vals : String → Int) :
    ∀ l : List Reg, (∀ r ∈ l, r.mode = d → ¬ outOfRange r (vals r.name)) →
      buildBitsLoop d vals l = .ok (packBits d vals l) := by
  intro l
  induction l with
  | nil =>
    intro _
    rfl
  | cons r rest ih =>
    intro h
    have hrest := ih fun x hx hm => h x (List.mem_cons_of_mem _ hx) hm
    by_cases hm : r.mode = d
    · have hr := h r (List.mem_cons_self _ _) hm
      unfold outOfRange at hr
      by_cases hs : r.rtype = .signed
      · rw [if_pos hs] at hr
        simp only [buildBitsLoop, packBits_cons, if_pos hm, if_pos hs, if_neg hr, hrest]
      · rw [if_neg hs] at hr
        simp only [buildBitsLoop, packBits_cons, if_pos hm, if_neg hs, if_neg hr, hrest]
    · simp only [buildBitsLoop, packBits_cons, if_neg hm, hrest]
      simp

theorem pyTail_self {α : Type} (xs : List α) : pyTail xs.length xs = xs := by
  unfold pyTail
  by_cases h : xs.length = 0
  · rw [if_pos h]
  · rw [if_neg h]
    simp

/-- Value extraction inverts the bit packing, out direction: with the out
region string formed by any already-consumed bits `fore`, the packed bits
of the remaining registers, and any trailing bits `suf`, the loop returns
every out register's emitted pattern. -/
theorem extract_out (vals : String → Int) :
    ∀ (l : List Reg) (inB fore suf : List Bool) (si : Nat),
      (∀ r ∈ l, r.mode = .output → 1 ≤ r.length ∧ patternOf r (vals r.name) < 2 ^ r.length) →
      (l.map Reg.name).Nodup →
      ∀ r ∈ l, r.mode = .output →
        dlookup (extractLoop inB (fore ++ (packBits .output vals l ++ suf)) l si fore.length)
            r.name = some (patternOf r (vals r.name)) := by
  intro l
  induction l with
  | nil =>
    intro inB fore suf si _ _ r hr
    cases hr
  | cons r0 rest ih =>
    intro inB fore suf si hrange hnodup r hr hmode
    have hnodup2 : (rest.map Reg.name).Nodup := by
      simp only [List.map_cons, List.nodup_cons] at hnodup
      exact hnodup.2
    have hnotin : r0.name ∉ rest.map Reg.name := by
      simp only [List.map_cons, List.nodup_cons] at hnodup
      exact hnodup.1
    by_cases hm0 : r0.mode = .output
    · obtain ⟨hl0, hp0⟩ := hrange r0 (List.mem_cons_self _ _) hm0
      have hvb : (valueBits r0 (vals r0.name)).length = r0.length := valueBits_length _ _ hl0 hp0
      have hmne : ¬ (r0.mode = .input) := by
        rw [hm0]
        decide
      have hstring : fore ++ (packBits .output vals (r0 :: rest) ++ suf) =
          fore ++ (valueBits r0 (vals r0.name) ++ (packBits .output vals rest ++ suf)) := by
        rw [packBits_cons, if_pos hm0, List.append_assoc]
      rw [hstring]
      have hstep : extractLoop inB
          (fore ++ (valueBits r0 (vals r0.name) ++ (packBits .output vals rest ++ suf)))
          (r0 :: rest) si fore.length =
          (r0.name, bitsToNat (((fore ++ (valueBits r0 (vals r0.name) ++
            (packBits .output vals rest ++ suf))).drop fore.length).take r0.length)) ::
          extractLoop inB (fore ++ (valueBits r0 (vals r0.name) ++
            (packBits .output vals rest ++ suf))) rest si (fore.length + r0.length) := by
        simp only [extractLoop, if_neg hmne]
      rw [hstep, List.drop_left, List.take_left' hvb, valueBits_toNat]
      rcases List.mem_cons.mp hr with heq | hmem
      · subst heq
        rw [dlookup_cons_self]
      · have hne : r0.name ≠ r.name := fun hc => hnotin (hc ▸ List.mem_map_of_mem Reg.name hmem)
        rw [dlookup_cons_ne _ _ _ _ hne]
        have hassoc : fore ++ (valueBits r0 (vals r0.name) ++ (packBits .output vals rest ++ suf))
            = (fore ++ valueBits r0 (vals r0.name)) ++ (packBits .output vals rest ++ suf) := by
          rw [List.append_assoc]
        have hlen2 : fore.length + r0.length = (fore ++ valueBits r0 (vals r0.name)).length := by
          rw [List.length_append, hvb]
        rw [hassoc, hlen2]
        exact ih inB (fore ++ valueBits r0 (vals r0.name)) suf si
          (fun x hx hm => hrange x (List.mem_cons_of_mem _ hx) hm) hnodup2 r hmem hmode
    · have hm0in : r0.mode = .input := by
        cases h0 : r0.mode
        · rfl
        · exact absurd h0 hm0
      have hmem : r ∈ rest := by
        rcases List.mem_cons.mp hr with heq | hmem
        · subst heq
          rw [hm0in] at hmode
          cases hmode
        · exact hmem
      have hne : r0.name ≠ r.name := fun hc => hnotin (hc ▸ List.mem_map_of_mem Reg.name hmem)
      have hpb : packBits .output vals (r0 :: rest) = packBits .output vals rest := by
        rw [packBits_cons, if_neg hm0]
        rfl
      rw [hpb]
      have hstep : extractLoop inB (fore ++ (packBits .output vals rest ++ suf))
          (r0 :: rest) si fore.length =
          (r0.name, bitsToNat ((inB.drop si).take r0.length)) ::
          extractLoop inB (fore ++ (packBits .output vals rest ++ suf)) rest
            (si + r0.length) fore.length := by
        simp only [extractLoop, if_pos hm0in]
      rw [hstep, dlookup_cons_ne _ _ _ _ hne]
      exact ih inB fore suf (si + r0.length)
        (fun x hx hm => hrange x (List.mem_cons_of_mem _ hx) hm) hnodup2 r hmem hmode

/-- Value extraction inverts the bit packing, in direction: mirror image of
`extract_out` with the running offset of the in region. -/
theorem extract_in (vals : String → Int) :
    ∀ (l : List Reg) (outB fore suf : List Bool) (so : Nat),
      (∀ r ∈ l, r.mode = .input → 1 ≤ r.length ∧ patternOf r (vals r.name) < 2 ^ r.length) →
      (l.map Reg.name).Nodup →
      ∀ r ∈ l, r.mode = .input →
        dlookup (extractLoop (fore ++ (packBits .input vals l ++ suf)) outB l fore.length so)
            r.name = some (patternOf r (vals r.name)) := by
  intro l
  induction l with
  | nil =>
    intro outB fore suf so _ _ r hr
    cases hr
  | cons r0 rest ih =>
    intro outB fore suf so hrange hnodup r hr hmode
    have hnodup2 : (rest.map Reg.name).Nodup := by
      simp only [List.map_cons, List.nodup_cons] at hnodup
      exact hnodup.2
    have hnotin : r0.name ∉ rest.map Reg.name := by
      simp only [List.map_cons, List.nodup_cons] at hnodup
      exact hnodup.1
    by_cases hm0 : r0.mode = .input
    · obtain ⟨hl0, hp0⟩ := hrange r0 (List.mem_cons_self _ _) hm0
      have hvb : (valueBits r0 (vals r0.name)).length = r0.length := valueBits_length _ _ hl0 hp0
      have hstring : fore ++ (packBits .input vals (r0 :: rest) ++ suf) =
          fore ++ (valueBits r0 (vals r0.name) ++ (packBits .input vals rest ++ suf)) := by
        rw [packBits_cons, if_pos hm0, List.append_assoc]
      rw [hstring]
      have hstep : extractLoop
          (fore ++ (valueBits r0 (vals r0.name) ++ (packBits .input vals rest ++ suf))) outB
          (r0 :: rest) fore.length so =
          (r0.name, bitsToNat (((fore ++ (valueBits r0 (vals r0.name) ++
            (packBits .input vals rest ++ suf))).drop fore.length).take r0.length)) ::
          extractLoop (fore ++ (valueBits r0 (vals r0.name) ++
            (packBits .input vals rest ++ suf))) outB rest (fore.length + r0.length) so := by
        simp only [extractLoop, if_pos hm0]
      rw [hstep, List.drop_left, List.take_left' hvb, valueBits_toNat]
      rcases List.mem_cons.mp hr with heq | hmem
      · subst heq
        rw [dlookup_cons_self]
      · have hne : r0.name ≠ r.name := fun hc => hnotin (hc ▸ List.mem_map_of_mem Reg.name hmem)
        rw [dlookup_cons_ne _ _ _ _ hne]
        have hassoc : fore ++ (valueBits r0 (vals r0.name) ++ (packBits .input vals rest ++ suf))
            = (fore ++ valueBits r0 (vals r0.name)) ++ (packBits .input vals rest ++ suf) := by
          rw [List.append_assoc]
        have hlen2 : fore.length + r0.length = (fore ++ valueBits r0 (vals r0.name)).length := by
          rw [List.length_append, hvb]
        rw [hassoc, hlen2]
        exact ih outB (fore ++ valueBits r0 (vals r0.name)) suf so
          (fun x hx hm => hrange x (List.mem_cons_of_mem _ hx) hm) hnodup2 r hmem hmode
    · have hm0out : r0.mode = .output := by
        cases h0 : r0.mode
        · exact absurd h0 hm0
        · rfl
      have hmem : r ∈ rest := by
        rcases List.mem_cons.mp hr with heq | hmem
        · subst heq
          rw [hm0out] at hmode
          cases hmode
        · exact hmem
      have hne : r0.name ≠ r.name := fun hc => hnotin (hc ▸ List.mem_map_of_mem Reg.name hmem)
      have hpb : packBits .input vals (r0 :: rest) = packBits .input vals rest := by
        rw [packBits_cons, if_neg hm0]
        rfl
      rw [hpb]
      have hmne : ¬ (r0.mode = .input) := hm0
      have hstep : extractLoop (fore ++ (packBits .input vals rest ++ suf)) outB
          (r0 :: rest) fore.length so =
          (r0.name, bitsToNat ((outB.drop so).take r0.length)) ::
          extractLoop (fore ++ (packBits .input vals rest ++ suf)) outB rest
            fore.length (so + r0.length) := by
        simp only [extractLoop, if_neg hmne]
      rw [hstep, dlookup_cons_ne _ _ _ _ hne]
      exact ih outB fore suf (so + r0.length)
        (fun x hx hm => hrange x (List.mem_cons_of_mem _ hx) hm) hnodup2 r hmem hmode

theorem packOut_eq (rs : List Reg) (d : RMode) (vals : String → Int)
    (hrange : ∀ r ∈ rs, r.mode = d → ¬ outOfRange r (vals r.name)) :
    packOut rs d vals = .ok (bitsToBytes (packBits d vals rs.reverse ++
      List.replicate ((8 - (packBits d vals rs.reverse).length % 8) % 8) false)) := by
  unfold packOut
  rw [buildBitsLoop_ok d vals rs.reverse fun r hr hm => hrange r (List.mem_reverse.mp hr) hm]

theorem sumLen_pos (rs : List Reg) (d : RMode) (r : Reg) (hr : r ∈ rs) (hm : r.mode = d)
    (hl : 1 ≤ r.length) : 1 ≤ sumLen rs d := by
  unfold sumLen
  have hmem : r.length ∈ (rs.filter fun x => decide (x.mode = d)).map Reg.length :=
    List.mem_map_of_mem Reg.length (List.mem_filter.mpr ⟨hr, by simp [hm]⟩)
  calc 1 ≤ r.length := hl
    _ ≤ _ := List.single_le_sum (fun x _ => Nat.zero_le x) _ hmem

/-- Claim C1 (amended): for every schema with distinct names and positive
widths, every direction, and every in-range assignment, extraction
reproduces each register's emitted bit pattern: the value itself whenever
it is nonnegative, and the two's-complement pattern value + 2^bitLength for
a negative signed value (so original negative values are NOT returned;
`read_regs` yields their unsigned pattern). -/
theorem c1_roundtrip_pattern (rs : List Reg) (d : RMode) (vals : String → Int)
    (hnodup : (rs.map Reg.name).Nodup)
    (hlen : ∀ r ∈ rs, r.mode = d → 1 ≤ r.length)
    (hrange : ∀ r ∈ rs, r.mode = d → ¬ outOfRange r (vals r.name)) :
    ∃ bytes, packOut rs d vals = .ok bytes ∧
      ∀ r ∈ rs, r.mode = d →
        dlookup (regsValues rs (regionData rs d bytes)) r.name
            = some (patternOf r (vals r.name)) ∧
        (0 ≤ vals r.name → (patternOf r (vals r.name) : Int) = vals r.name) ∧
        (r.rtype = .signed → vals r.name < 0 →
          (patternOf r (vals r.name) : Int) = vals r.name + 2 ^ r.length) := by
  have hbound : ∀ r ∈ rs, r.mode = d → 1 ≤ r.length ∧ patternOf r (vals r.name) < 2 ^ r.length :=
    fun r hr hm => ⟨hlen r hr hm, patternOf_lt r _ (hlen r hr hm) (hrange r hr hm)⟩
  have hboundRev : ∀ r ∈ rs.reverse, r.mode = d →
      1 ≤ r.length ∧ patternOf r (vals r.name) < 2 ^ r.length :=
    fun r hr hm => hbound r (List.mem_reverse.mp hr) hm
  have hnodupRev : (rs.reverse.map Reg.name).Nodup := by
    rw [List.map_reverse]
    exact List.nodup_reverse.mpr hnodup
  have hpblen : (packBits d vals rs.reverse).length = sumLen rs d := by
    rw [packBits_length d vals rs.reverse hboundRev, sumLen_reverse]
  have hpadlen : (packBits d vals rs.reverse ++
      List.replicate ((8 - (packBits d vals rs.reverse).length % 8) % 8) false).length =
      regionBits rs d := by
    rw [List.length_append, List.length_replicate, hpblen]
    unfold regionBits
    omega
  have hmod : (packBits d vals rs.reverse ++
      List.replicate ((8 - (packBits d vals rs.reverse).length % 8) % 8) false).length % 8 = 0 := by
    rw [hpadlen]
    unfold regionBits
    omega
  have hbytes := packOut_eq rs d vals hrange
  have hblen : (bitsToBytes (packBits d vals rs.reverse ++
      List.replicate ((8 - (packBits d vals rs.reverse).length % 8) % 8) false)).length =
      regionBits rs d / 8 := by
    rw [bitsToBytes_length _ hmod, hpadlen]
  have hb2b := bytesToBits_bitsToBytes _ hmod
  refine ⟨_, hbytes, ?_⟩
  intro r hr hm
  have hnonneg : 0 ≤ vals r.name → (patternOf r (vals r.name) : Int) = vals r.name :=
    fun h0 => patternOf_nonneg r _ h0
  have hneg : r.rtype = .signed → vals r.name < 0 →
      (patternOf r (vals r.name) : Int) = vals r.name + 2 ^ r.length := by
    intro hs hv
    have hr2 := hrange r hr hm
    unfold outOfRange at hr2
    rw [if_pos hs] at hr2
    push_neg at hr2
    have hpow : (2 : Int) ^ r.length = 2 ^ (r.length - 1) * 2 := by
      rw [← pow_succ]
      congr 1
      have := hlen r hr hm
      omega
    have hpos : (0 : Int) < 2 ^ (r.length - 1) := by positivity
    exact patternOf_neg r _ hs hv (by omega)
  refine ⟨?_, hnonneg, hneg⟩
  cases d with
  | output =>
    have htake : (regionData rs .output (bitsToBytes (packBits .output vals rs.reverse ++
        List.replicate ((8 - (packBits .output vals rs.reverse).length % 8) % 8) false))).take
        (regionBits rs .output / 8) = bitsToBytes (packBits .output vals rs.reverse ++
        List.replicate ((8 - (packBits .output vals rs.reverse).length % 8) % 8) false) := by
      unfold regionData
      exact List.take_left' hblen
    have hpt : pyTail (regionBits rs .output) (packBits .output vals rs.reverse ++
        List.replicate ((8 - (packBits .output vals rs.reverse).length % 8) % 8) false) =
        packBits .output vals rs.reverse ++
        List.replicate ((8 - (packBits .output vals rs.reverse).length % 8) % 8) false := by
      rw [← hpadlen]
      exact pyTail_self _
    simp only [regsValues]
    rw [htake, hb2b, hpt]
    have hres := extract_out vals rs.reverse
      (pyTail (regionBits rs .input) (bytesToBits (pyTail (regionBits rs .input / 8)
        (regionData rs .output (bitsToBytes (packBits .output vals rs.reverse ++
          List.replicate ((8 - (packBits .output vals rs.reverse).length % 8) % 8) false))))))
      [] (List.replicate ((8 - (packBits .output vals rs.reverse).length % 8) % 8) false) 0
      hboundRev hnodupRev r (List.mem_reverse.mpr hr) hm
    simpa using hres
  | input =>
    have hinpos : 1 ≤ sumLen rs .input := sumLen_pos rs .input r hr hm (hlen r hr hm)
    have hk0 : regionBits rs .input / 8 ≠ 0 := by
      unfold regionBits
      omega
    have hptail : pyTail (regionBits rs .input / 8)
        (regionData rs .input (bitsToBytes (packBits .input vals rs.reverse ++
          List.replicate ((8 - (packBits .input vals rs.reverse).length % 8) % 8) false))) =
        bitsToBytes (packBits .input vals rs.reverse ++
          List.replicate ((8 - (packBits .input vals rs.reverse).length % 8) % 8) false) := by
      unfold regionData pyTail
      rw [if_neg hk0, List.length_append, List.length_replicate, hblen]
      have harith : regionBits rs .output / 8 + regionBits rs .input / 8 -
          regionBits rs .input / 8 = (List.replicate (regionBits rs .output / 8) (0 : Nat)).length := by
        rw [List.length_replicate]
        omega
      rw [harith, List.drop_left]
    have hpt : pyTail (regionBits rs .input) (packBits .input vals rs.reverse ++
        List.replicate ((8 - (packBits .input vals rs.reverse).length % 8) % 8) false) =
        packBits .input vals rs.reverse ++
        List.replicate ((8 - (packBits .input vals rs.reverse).length % 8) % 8) false := by
      rw [← hpadlen]
      exact pyTail_self _
    simp only [regsValues]
    rw [hptail, hb2b, hpt]
    have hres := extract_in vals rs.reverse
      (pyTail (regionBits rs .output) (bytesToBits ((regionData rs .input
        (bitsToBytes (packBits .input vals rs.reverse ++
          List.replicate ((8 - (packBits .input vals rs.reverse).length % 8) % 8) false))).take
        (regionBits rs .output / 8))))
      [] (List.replicate ((8 - (packBits .input vals rs.reverse).length % 8) % 8) false) 0
      hboundRev hnodupRev r (List.mem_reverse.mpr hr) hm
    simpa using hres

theorem c1_roundtrip_pattern_witness :
    ∃ bytes, packOut [⟨"a", .output, 4, .unsigned⟩] .output (fun _ => (5 : Int)) = .ok bytes ∧
      ∀ r ∈ ([⟨"a", .output, 4, .unsigned⟩] : List Reg), r.mode = .output →
        dlookup (regsValues [⟨"a", .output, 4, .unsigned⟩]
            (regionData [⟨"a", .output, 4, .unsigned⟩] .output bytes)) r.name
            = some (patternOf r 5) ∧
        (0 ≤ (5 : Int) → (patternOf r 5 : Int) = 5) ∧
        (r.rtype = .signed → (5 : Int) < 0 → (patternOf r 5 : Int) = 5 + 2 ^ r.length) :=
  c1_roundtrip_pattern [⟨"a", .output, 4, .unsigned⟩] .output (fun _ => 5)
    (by decide) (by decide) (by decide)

/-- Claim C1 counterexample: for the schema with a single 4-bit signed out
register s and the assignment s = -1, packing yields the byte 0xF0 and the
extraction of read_regs returns 15, not the original value -1: the
round-trip law fails for negative signed values. -/
theorem c1_counterexample :
    packOut [⟨"s", .output, 4, .signed⟩] .output (fun _ => (-1 : Int)) = .ok [0xF0] ∧
    dlookup (regsValues [⟨"s", .output, 4, .signed⟩]
      (regionData [⟨"s", .output, 4, .signed⟩] .output [0xF0])) "s" = some 15 ∧
    ((dlookup (regsValues [⟨"s", .output, 4, .signed⟩]
      (regionData [⟨"s", .output, 4, .signed⟩] .output [0xF0])) "s").getD 0 : Int) ≠ -1 := by
  refine ⟨?_, by decide, by decide⟩
  have hland : Int.land (-1) ((2 : Int) ^ (4 : Nat) - 1) = 15 := by
    rw [int_land_mask 4 (-1) (by norm_num) (by norm_num)]
    norm_num
  have hvb : valueBits ⟨"s", .output, 4, .signed⟩ (-1) = padBits 4 15 := by
    unfold valueBits
    rw [if_pos ⟨rfl, by norm_num⟩]
    show padBits 4 (Int.land (-1) ((2 : Int) ^ (4 : Nat) - 1)).toNat = padBits 4 15
    rw [hland]
    rfl
  rw [packOut_eq _ _ _ (by decide)]
  rw [show packBits .output (fun _ => (-1 : Int)) ([⟨"s", .output, 4, .signed⟩] : List Reg).reverse
      = valueBits ⟨"s", .output, 4, .signed⟩ (-1) ++ [] from rfl]
  rw [hvb]
  decide

/-! Bound on every extracted value, and the signed display conversion. -/

theorem extractLoop_lookup_lt :
    ∀ (l : List Reg) (inB outB : List Bool) (si so : Nat) (r : Reg), r ∈ l →
      (l.map Reg.name).Nodup →
      ∃ v, dlookup (extractLoop inB outB l si so) r.name = some v ∧ v < 2 ^ r.length := by
  intro l
  induction l with
  | nil =>
    intro _ _ _ _ r hr
    cases hr
  | cons r0 rest ih =>
    intro inB outB si so r hr hnodup
    have hnodup2 : (rest.map Reg.name).Nodup := by
      simp only [List.map_cons, List.nodup_cons] at hnodup
      exact hnodup.2
    have hnotin : r0.name ∉ rest.map Reg.name := by
      simp only [List.map_cons, List.nodup_cons] at hnodup
      exact hnodup.1
    by_cases hm0 : r0.mode = .input
    · have hstep : extractLoop inB outB (r0 :: rest) si so =
          (r0.name, bitsToNat ((inB.drop si).take r0.length)) ::
          extractLoop inB outB rest (si + r0.length) so := by
        simp only [extractLoop, if_pos hm0]
      rcases List.mem_cons.mp hr with heq | hmem
      · subst heq
        refine ⟨_, by rw [hstep, dlookup_cons_self], ?_⟩
        calc bitsToNat ((inB.drop si).take r.length)
            < 2 ^ ((inB.drop si).take r.length).length := bitsToNat_lt _
          _ ≤ 2 ^ r.length := Nat.pow_le_pow_right (by norm_num) (List.length_take_le _ _)
      · have hne : r0.name ≠ r.name := fun hc => hnotin (hc ▸ List.mem_map_of_mem Reg.name hmem)
        obtain ⟨v, hv, hlt⟩ := ih inB outB (si + r0.length) so r hmem hnodup2
        exact ⟨v, by rw [hstep, dlookup_cons_ne _ _ _ _ hne]; exact hv, hlt⟩
    · have hstep : extractLoop inB outB (r0 :: rest) si so =
          (r0.name, bitsToNat ((outB.drop so).take r0.length)) ::
          extractLoop inB outB rest si (so + r0.length) := by
        simp only [extractLoop, if_neg hm0]
      rcases List.mem_cons.mp hr with heq | hmem
      · subst heq
        refine ⟨_, by rw [hstep, dlookup_cons_self], ?_⟩
        calc bitsToNat ((outB.drop so).take r.length)
            < 2 ^ ((outB.drop so).take r.length).length := bitsToNat_lt _
          _ ≤ 2 ^ r.length := Nat.pow_le_pow_right (by norm_num) (List.length_take_le _ _)
      · have hne : r0.name ≠ r.name := fun hc => hnotin (hc ▸ List.mem_map_of_mem Reg.name hmem)
        obtain ⟨v, hv, hlt⟩ := ih inB outB si (so + r0.length) r hmem hnodup2
        exact ⟨v, by rw [hstep, dlookup_cons_ne _ _ _ _ hne]; exact hv, hlt⟩

theorem printIntVal_eq (l : Nat) (v : Nat) (hl : 1 ≤ l) (hv : v < 2 ^ l) :
    printIntVal l v = if 2 ^ (l - 1) ≤ v then (v : Int) - 2 ^ l else (v : Int) := by
  unfold printIntVal
  have hp : 0 < 2 ^ (l - 1) := Nat.two_pow_pos _
  have h2l : 2 ^ l = 2 ^ (l - 1) * 2 := by
    rw [← Nat.pow_succ]
    congr 1
    omega
  have hand : v &&& 2 ^ (l - 1) = (v.testBit (l - 1)).toNat * 2 ^ (l - 1) :=
    Nat.and_two_pow v (l - 1)
  have htb : v.testBit (l - 1) = decide (v / 2 ^ (l - 1) % 2 = 1) := Nat.testBit_to_div_mod
  have hq : v / 2 ^ (l - 1) < 2 := Nat.div_lt_of_lt_mul (by omega)
  have hq1 : 2 ^ (l - 1) ≤ v → v / 2 ^ (l - 1) = 1 := by
    intro hge
    have h1 : 1 ≤ v / 2 ^ (l - 1) := (Nat.le_div_iff_mul_le hp).mpr (by omega)
    omega
  have hq1r : v / 2 ^ (l - 1) = 1 → 2 ^ (l - 1) ≤ v := by
    intro h1
    have h2 : 1 * 2 ^ (l - 1) ≤ v := (Nat.le_div_iff_mul_le hp).mp (le_of_eq h1.symm)
    simpa using h2
  by_cases hge : 2 ^ (l - 1) ≤ v
  · rw [if_pos hge]
    have hne : v &&& 2 ^ (l - 1) ≠ 0 := by
      rw [hand, htb, hq1 hge]
      simp
    rw [if_pos hne]
  · rw [if_neg hge]
    have hq0 : v / 2 ^ (l - 1) = 0 := by
      have hne1 : v / 2 ^ (l - 1) ≠ 1 := fun hc => hge (hq1r hc)
      generalize hgen : v / 2 ^ (l - 1) = q at hq hne1 ⊢
      omega
    have hz : v &&& 2 ^ (l - 1) = 0 := by
      rw [hand, htb, hq0]
      simp
    rw [if_neg fun hne => hne hz]

/-- Claim C4 (amended): the mapping returned by read_regs holds the raw
unsigned bit pattern of every register, signed ones included; the
two's-complement reinterpretation (value - 2^bitLength when the pattern is
at least 2^(bitLength-1)) is applied only by the Int-val column of
print_regs, whose formula satisfies the spec's equation. -/
theorem c4_signed_display (rs : List Reg) (data : List Nat) (r : Reg)
    (hmem : r ∈ rs) (hnodup : (rs.map Reg.name).Nodup)
    (hs : r.rtype = .signed) (hl : 1 ≤ r.length) :
    ∃ v, dlookup (regsValues rs data) r.name = some v ∧ v < 2 ^ r.length ∧
      printIntVal r.length v =
        (if 2 ^ (r.length - 1) ≤ v then (v : Int) - 2 ^ r.length else (v : Int)) := by
  have h1 : regsValues rs data = extractLoop
      (pyTail (regionBits rs .input) (bytesToBits (pyTail (regionBits rs .input / 8) data)))
      (pyTail (regionBits rs .output) (bytesToBits (data.take (regionBits rs .output / 8))))
      rs.reverse 0 0 := by
    simp only [regsValues]
  obtain ⟨v, hv, hlt⟩ := extractLoop_lookup_lt rs.reverse
    (pyTail (regionBits rs .input) (bytesToBits (pyTail (regionBits rs .input / 8) data)))
    (pyTail (regionBits rs .output) (bytesToBits (data.take (regionBits rs .output / 8))))
    0 0 r (List.mem_reverse.mpr hmem)
    (by rw [List.map_reverse]; exact List.nodup_reverse.mpr hnodup)
  exact ⟨v, by rw [h1]; exact hv, hlt, printIntVal_eq r.length v hl hlt⟩

theorem c4_signed_display_witness :
    ∃ v, dlookup (regsValues [⟨"s", .input, 4, .signed⟩] [0xF0]) "s" = some v ∧
      v < 2 ^ (4 : Nat) ∧
      printIntVal 4 v = (if 2 ^ (4 - 1 : Nat) ≤ v then (v : Int) - 2 ^ (4 : Nat) else (v : Int)) :=
  c4_signed_display [⟨"s", .input, 4, .signed⟩] [0xF0] ⟨"s", .input, 4, .signed⟩
    (by decide) (by decide) (by decide) (by decide)

/-- Claim C4 counterexample: for the schema with one 4-bit signed in
register s and the data byte 0xF0, the bit pattern is 15 ≥ 2^3, so the
claim requires the returned value 15 - 16 = -1; read_regs returns the raw
pattern 15 instead. -/
theorem c4_counterexample :
    dlookup (regsValues [⟨"s", .input, 4, .signed⟩] [0xF0]) "s" = some 15 ∧
    (2 ^ (3 : Nat) : Nat) ≤ 15 ∧
    ((dlookup (regsValues [⟨"s", .input, 4, .signed⟩] [0xF0]) "s").getD 0 : Int) ≠ 15 - 2 ^ 4 := by
  decide

/-! Characterization of the range validation of write_regs. -/

theorem buildBitsLoop_error (d : RMode) (vals : String → Int) :
    ∀ (l : List Reg) (n : String) (ln : Nat) (v : Int) (sg : Bool),
      buildBitsLoop d vals l = .error (.valueOutOfRange n ln v sg) →
      ∃ r ∈ l, r.mode = d ∧ r.name = n ∧ r.length = ln ∧ vals r.name = v ∧
        outOfRange r (vals r.name) := by
  intro l
  induction l with
  | nil =>
    intro n ln v sg h
    exact Except.noConfusion h
  | cons r0 rest ih =>
    intro n ln v sg h
    by_cases hm : r0.mode = d
    · by_cases hsg : r0.rtype = .signed
      · by_cases hc : vals r0.name ≥ 2 ^ (r0.length - 1) ∨
            vals r0.name < -((2 : Int) ^ (r0.length - 1))
        · simp only [buildBitsLoop, if_pos hm, if_pos hsg, if_pos hc,
            Except.error.injEq, Err.valueOutOfRange.injEq] at h
          obtain ⟨hn, hln, hv, _⟩ := h
          exact ⟨r0, List.mem_cons_self _ _, hm, hn, hln, hv,
            by unfold outOfRange; rw [if_pos hsg]; exact hc⟩
        · cases hrest : buildBitsLoop d vals rest with
          | error e =>
            simp only [buildBitsLoop, if_pos hm, if_pos hsg, if_neg hc, hrest,
              Except.error.injEq] at h
            obtain ⟨r, hr, hconc⟩ := ih n ln v sg (by rw [hrest, h])
            exact ⟨r, List.mem_cons_of_mem _ hr, hconc⟩
          | ok bits =>
            simp only [buildBitsLoop, if_pos hm, if_pos hsg, if_neg hc, hrest] at h
            exact Except.noConfusion h
      · by_cases hc : vals r0.name < 0 ∨ vals r0.name ≥ 2 ^ r0.length
        · simp only [buildBitsLoop, if_pos hm, if_neg hsg, if_pos hc,
            Except.error.injEq, Err.valueOutOfRange.injEq] at h
          obtain ⟨hn, hln, hv, _⟩ := h
          exact ⟨r0, List.mem_cons_self _ _, hm, hn, hln, hv,
            by unfold outOfRange; rw [if_neg hsg]; exact hc⟩
        · cases hrest : buildBitsLoop d vals rest with
          | error e =>
            simp only [buildBitsLoop, if_pos hm, if_neg hsg, if_neg hc, hrest,
              Except.error.injEq] at h
            obtain ⟨r, hr, hconc⟩ := ih n ln v sg (by rw [hrest, h])
            exact ⟨r, List.mem_cons_of_mem _ hr, hconc⟩
          | ok bits =>
            simp only [buildBitsLoop, if_pos hm, if_neg hsg, if_neg hc, hrest] at h
            exact Except.noConfusion h
    · simp only [buildBitsLoop, if_neg hm] at h
      obtain ⟨r, hr, hconc⟩ := ih n ln v sg h
      exact ⟨r, List.mem_cons_of_mem _ hr, hconc⟩

theorem buildBitsLoop_isOk (d : RMode) (vals : String → Int) :
    ∀ l : List Reg, (buildBitsLoop d vals l).isOk = true ↔
      ∀ r ∈ l, r.mode = d → ¬ outOfRange r (vals r.name) := by
  intro l
  induction l with
  | nil =>
    constructor
    · intro _ r hr
      cases hr
    · intro _
      rfl
  | cons r0 rest ih =>
    by_cases hm : r0.mode = d
    · by_cases hsg : r0.rtype = .signed
      · by_cases hc : vals r0.name ≥ 2 ^ (r0.length - 1) ∨
            vals r0.name < -((2 : Int) ^ (r0.length - 1))
        · simp only [buildBitsLoop, if_pos hm, if_pos hsg, if_pos hc]
          constructor
          · intro h
            exact absurd h (by simp [Except.isOk, Except.toBool])
          · intro hall
            exact absurd (by unfold outOfRange; rw [if_pos hsg]; exact hc)
              (hall r0 (List.mem_cons_self _ _) hm)
        · cases hrest : buildBitsLoop d vals rest with
          | error e =>
            simp only [buildBitsLoop, if_pos hm, if_pos hsg, if_neg hc, hrest]
            constructor
            · intro h
              exact absurd h (by simp [Except.isOk, Except.toBool])
            · intro hall
              have hok : (buildBitsLoop d vals rest).isOk = true :=
                ih.mpr fun x hx hm2 => hall x (List.mem_cons_of_mem _ hx) hm2
              rw [hrest] at hok
              exact absurd hok (by simp [Except.isOk, Except.toBool])
          | ok bits =>
            simp only [buildBitsLoop, if_pos hm, if_pos hsg, if_neg hc, hrest]
            constructor
            · intro _ r hr hm2
              rcases List.mem_cons.mp hr with heq | hmem
              · subst heq
                unfold outOfRange
                rw [if_pos hsg]
                exact hc
              · have hok : (buildBitsLoop d vals rest).isOk = true := by
                  rw [hrest]
                  rfl
                exact (ih.mp hok) r hmem hm2
            · intro _
              rfl
      · by_cases hc : vals r0.name < 0 ∨ vals r0.name ≥ 2 ^ r0.length
        · simp only [buildBitsLoop, if_pos hm, if_neg hsg, if_pos hc]
          constructor
          · intro h
            exact absurd h (by simp [Except.isOk, Except.toBool])
          · intro hall
            exact absurd (by unfold outOfRange; rw [if_neg hsg]; exact hc)
              (hall r0 (List.mem_cons_self _ _) hm)
        · cases hrest : buildBitsLoop d vals rest with
          | error e =>
            simp only [buildBitsLoop, if_pos hm, if_neg hsg, if_neg hc, hrest]
            constructor
            · intro h
              exact absurd h (by simp [Except.isOk, Except.toBool])
            · intro hall
              have hok : (buildBitsLoop d vals rest).isOk = true :=
                ih.mpr fun x hx hm2 => hall x (List.mem_cons_of_mem _ hx) hm2
              rw [hrest] at hok
              exact absurd hok (by simp [Except.isOk, Except.toBool])
          | ok bits =>
            simp only [buildBitsLoop, if_pos hm, if_neg hsg, if_neg hc, hrest]
            constructor
            · intro _ r hr hm2
              rcases List.mem_cons.mp hr with heq | hmem
              · subst heq
                unfold outOfRange
                rw [if_neg hsg]
                exact hc
              · have hok : (buildBitsLoop d vals rest).isOk = true := by
                  rw [hrest]
                  rfl
                exact (ih.mp hok) r hmem hm2
            · intro _
              rfl
    · simp only [buildBitsLoop, if_neg hm]
      constructor
      · intro h r hr hm2
        rcases List.mem_cons.mp hr with heq | hmem
        · subst heq
          exact absurd hm2 hm
        · exact (ih.mp h) r hmem hm2
      · intro hall
        exact ih.mpr fun r hr hm2 => hall r (List.mem_cons_of_mem _ hr) hm2

theorem packOut_isOk (rs : List Reg) (d : RMode) (vals : String → Int) :
    (packOut rs d vals).isOk = true ↔
      ∀ r ∈ rs, r.mode = d → ¬ outOfRange r (vals r.name) := by
  have h2 := buildBitsLoop_isOk d vals rs.reverse
  cases hb : buildBitsLoop d vals rs.reverse with
  | error e =>
    rw [hb] at h2
    have hpo : packOut rs d vals = .error e := by
      unfold packOut
      rw [hb]
    rw [hpo]
    constructor
    · intro h
      exact absurd h (by simp [Except.isOk, Except.toBool])
    · intro hall
      have := h2.mpr fun r hr hm => hall r (List.mem_reverse.mp hr) hm
      exact absurd this (by simp [Except.isOk, Except.toBool])
  | ok bits =>
    rw [hb] at h2
    have hpo : packOut rs d vals =
        .ok (bitsToBytes (bits ++ List.replicate ((8 - bits.length % 8) % 8) false)) := by
      unfold packOut
      rw [hb]
    rw [hpo]
    constructor
    · intro _ r hr hm
      exact (h2.mp rfl) r (List.mem_reverse.mpr hr) hm
    · intro _
      rfl

theorem packOut_error_names (rs : List Reg) (d : RMode) (vals : String → Int)
    (n : String) (ln : Nat) (v : Int) (sg : Bool)
    (h : packOut rs d vals = .error (.valueOutOfRange n ln v sg)) :
    ∃ r ∈ rs, r.mode = d ∧ r.name = n ∧ r.length = ln ∧ vals r.name = v ∧
      outOfRange r (vals r.name) := by
  cases hb : buildBitsLoop d vals rs.reverse with
  | error e =>
    have hpo : packOut rs d vals = .error e := by
      unfold packOut
      rw [hb]
    rw [hpo] at h
    have he : e = .valueOutOfRange n ln v sg := Except.error.inj h
    obtain ⟨r, hr, hconc⟩ := buildBitsLoop_error d vals rs.reverse n ln v sg (by rw [hb, he])
    exact ⟨r, List.mem_reverse.mp hr, hconc⟩
  | ok bits =>
    have hpo : packOut rs d vals =
        .ok (bitsToBytes (bits ++ List.replicate ((8 - bits.length % 8) % 8) false)) := by
      unfold packOut
      rw [hb]
    rw [hpo] at h
    exact Except.noConfusion h

/-- Claim C7: pack fails with ValueOutOfRange exactly when some supplied
value is outside its register's representable range, and the error names
the offending register, its width and the attempted value; a 4-bit
unsigned register given 16 fails, a 4-bit signed register given 8 or -9
fails, while the boundary values 15, 7 and -8 succeed. -/
theorem c7_range_validation :
    (∀ (rs : List Reg) (d : RMode) (vals : String → Int),
      ((packOut rs d vals).isOk = true ↔
        ∀ r ∈ rs, r.mode = d → ¬ outOfRange r (vals r.name)) ∧
      (∀ (n : String) (ln : Nat) (v : Int) (sg : Bool),
        packOut rs d vals = .error (.valueOutOfRange n ln v sg) →
        ∃ r ∈ rs, r.mode = d ∧ r.name = n ∧ r.length = ln ∧ vals r.name = v ∧
          outOfRange r (vals r.name))) ∧
    packOut [⟨"u", .output, 4, .unsigned⟩] .output (fun _ => 16) =
      .error (.valueOutOfRange "u" 4 16 false) ∧
    packOut [⟨"s", .output, 4, .signed⟩] .output (fun _ => 8) =
      .error (.valueOutOfRange "s" 4 8 true) ∧
    packOut [⟨"s", .output, 4, .signed⟩] .output (fun _ => -9) =
      .error (.valueOutOfRange "s" 4 (-9) true) ∧
    (packOut [⟨"u", .output, 4, .unsigned⟩] .output (fun _ => 15)).isOk = true ∧
    (packOut [⟨"s", .output, 4, .signed⟩] .output (fun _ => 7)).isOk = true ∧
    (packOut [⟨"s", .output, 4, .signed⟩] .output (fun _ => -8)).isOk = true := by
  refine ⟨fun rs d vals => ⟨packOut_isOk rs d vals, fun n ln v sg h =>
    packOut_error_names rs d vals n ln v sg h⟩, by decide, by decide, by decide, ?_, ?_, ?_⟩
  · rw [packOut_isOk]
    decide
  · rw [packOut_isOk]
    decide
  · rw [packOut_isOk]
    decide

theorem c7_range_validation_witness :
    ∃ r ∈ ([⟨"u", .output, 4, .unsigned⟩] : List Reg), r.mode = .output ∧ r.name = "u" ∧
      r.length = 4 ∧ (16 : Int) = 16 ∧ outOfRange r 16 :=
  ((c7_range_validation.1 [⟨"u", .output, 4, .unsigned⟩] .output (fun _ => 16)).2
    "u" 4 16 false (by decide))

/-! Heap facts: the write path only ever mutates the copied dict. -/

theorem heapGet_append_lt (h : Heap) (d : Dict) (a : Nat) (ha : a < h.length) :
    heapGet (h ++ [d]) a = heapGet h a := by
  unfold heapGet
  rw [List.getD_eq_getElem?_getD, List.getD_eq_getElem?_getD, List.getElem?_append_left ha]

theorem heapGet_append_self (h : Heap) (d : Dict) : heapGet (h ++ [d]) h.length = d := by
  unfold heapGet
  rw [List.getD_eq_getElem?_getD, List.getElem?_concat_length]
  rfl

theorem heapGet_set_ne (h : Heap) (ca a : Nat) (d : Dict) (hne : ca ≠ a) :
    heapGet (heapSet h ca d) a = heapGet h a := by
  unfold heapGet heapSet
  rw [List.getD_eq_getElem?_getD, List.getD_eq_getElem?_getD, List.getElem?_set_ne hne]

theorem heapGet_foldl_assign (ca : Nat) (f : String → Int) :
    ∀ (names : List String) (h : Heap) (a : Nat), a ≠ ca →
      heapGet (names.foldl (fun h2 n => dictAssign h2 ca n (f n)) h) a = heapGet h a := by
  intro names
  induction names with
  | nil =>
    intro h a _
    rfl
  | cons m rest ih =>
    intro h a hne
    rw [List.foldl_cons, ih _ a hne]
    exact heapGet_set_ne h ca a _ (Ne.symm hne)

theorem readBackMissing_heapGet (rs : List Reg) (h : Heap) (a : Nat) (incoming : List Nat)
    (ha : a < h.length) :
    heapGet (readBackMissing rs h a incoming).1 a = heapGet h a := by
  unfold readBackMissing
  simp only [dictCopy]
  split
  · exact heapGet_append_lt h _ a ha
  · split
    · exact heapGet_append_lt h _ a ha
    · rename_i current heq
      exact Eq.trans
        (heapGet_foldl_assign h.length (fun n => (((dlookup current n).getD 0 : Nat) : Int))
          _ (h ++ [heapGet h a]) a (by omega))
        (heapGet_append_lt h (heapGet h a) a ha)

/-- Claim C10: write_regs never mutates the caller's value mapping: the
dict object passed by the caller holds exactly the same entries after the
call, the merge of missing out registers happening only on the copy made by
read_back_missing_out_regs. -/
theorem c10_caller_dict_preserved (rs : List Reg) (h : Heap) (a : Nat) (incoming : List Nat)
    (ha : a < h.length) :
    heapGet (writeRegsRun rs h a incoming).heap a = heapGet h a := by
  simp only [writeRegsRun]
  split
  · exact readBackMissing_heapGet rs h a incoming ha
  · split
    · exact readBackMissing_heapGet rs h a incoming ha
    · exact readBackMissing_heapGet rs h a incoming ha

theorem c10_caller_dict_preserved_witness :
    heapGet (writeRegsRun [⟨"a", .output, 4, .unsigned⟩, ⟨"b", .output, 4, .unsigned⟩]
      [[("a", 1)]] 0 [0x0B, 0x00, 0x0C]).heap 0 = heapGet [[("a", 1)]] 0 :=
  c10_caller_dict_preserved [⟨"a", .output, 4, .unsigned⟩, ⟨"b", .output, 4, .unsigned⟩]
    [[("a", 1)]] 0 [0x0B, 0x00, 0x0C] (by decide)

/-! Which bytes have been sent when a write fails validation. -/

theorem readBackMissing_sent (rs : List Reg) (h : Heap) (a : Nat) (incoming : List Nat) :
    (readBackMissing rs h a incoming).2.2.1 = [] ∨
    (readBackMissing rs h a incoming).2.2.1 = [READ_REQ] := by
  unfold readBackMissing
  simp only [dictCopy]
  split
  · left
    rfl
  · split
    · right
      rfl
    · right
      rfl

theorem writeRegsRun_sent_error (rs : List Reg) (h : Heap) (a : Nat) (incoming : List Nat)
    (e : Err) (hres : (writeRegsRun rs h a incoming).result = .error e) :
    (writeRegsRun rs h a incoming).sent = (readBackMissing rs h a incoming).2.2.1 := by
  cases hrb : (readBackMissing rs h a incoming).2.2.2 with
  | error e2 =>
    simp only [writeRegsRun]
    rw [hrb]
  | ok u =>
    cases hpk : packOut rs .output
        (fun n => (dlookup (heapGet (readBackMissing rs h a incoming).1
          (readBackMissing rs h a incoming).2.1) n).getD 0) with
    | error e3 =>
      simp only [writeRegsRun]
      rw [hrb, hpk]
    | ok bytes =>
      exfalso
      simp only [writeRegsRun] at hres
      rw [hrb, hpk] at hres
      exact Except.noConfusion hres

theorem readBackMissing_sent_nil (rs : List Reg) (h : Heap) (a : Nat) (incoming : List Nat)
    (hall : ∀ r ∈ rs, r.mode = .output → (dlookup (heapGet h a) r.name).isSome = true) :
    (readBackMissing rs h a incoming).2.2.1 = [] := by
  unfold readBackMissing
  simp only [dictCopy]
  rw [heapGet_append_self]
  have hfil : (rs.filter fun r =>
      decide (r.mode = .output) && (dlookup (heapGet h a) r.name).isNone) = [] := by
    rw [List.filter_eq_nil_iff]
    intro r hr
    by_cases hm : r.mode = .output
    · have hsome := hall r hr hm
      cases hcase : dlookup (heapGet h a) r.name with
      | none =>
        rw [hcase] at hsome
        exact absurd hsome (by simp)
      | some v => simp [hm, hcase]
    · simp [hm]
  rw [hfil]
  rfl

/-- Claim C8 (amended): a ValueOutOfRange failure of write_regs always
precedes the sending of the write frame (at most the READ_REQ byte of the
read-back has been sent), and when the supplied value set already covers
every out register no byte at all has been sent; but when values are
missing, the read-back transaction (READ_REQ) does occur before the
out-of-range value is rejected. -/
theorem c8_validation_vs_io (rs : List Reg) (h : Heap) (a : Nat) (incoming : List Nat) :
    (∀ (n : String) (ln : Nat) (v : Int) (sg : Bool),
      (writeRegsRun rs h a incoming).result = .error (.valueOutOfRange n ln v sg) →
      (writeRegsRun rs h a incoming).sent = [] ∨
        (writeRegsRun rs h a incoming).sent = [READ_REQ]) ∧
    ((∀ r ∈ rs, r.mode = .output → (dlookup (heapGet h a) r.name).isSome = true) →
      ∀ (n : String) (ln : Nat) (v : Int) (sg : Bool),
        (writeRegsRun rs h a incoming).result = .error (.valueOutOfRange n ln v sg) →
        (writeRegsRun rs h a incoming).sent = []) := by
  constructor
  · intro n ln v sg hres
    rw [writeRegsRun_sent_error rs h a incoming _ hres]
    exact readBackMissing_sent rs h a incoming
  · intro hall n ln v sg hres
    rw [writeRegsRun_sent_error rs h a incoming _ hres]
    exact readBackMissing_sent_nil rs h a incoming hall

theorem c8_validation_vs_io_witness :
    (writeRegsRun [⟨"a", .output, 4, .unsigned⟩, ⟨"b", .output, 4, .unsigned⟩]
      [[("a", 16)]] 0 [0x0B, 0x00, 0x0C]).sent = [] ∨
    (writeRegsRun [⟨"a", .output, 4, .unsigned⟩, ⟨"b", .output, 4, .unsigned⟩]
      [[("a", 16)]] 0 [0x0B, 0x00, 0x0C]).sent = [READ_REQ] :=
  (c8_validation_vs_io [⟨"a", .output, 4, .unsigned⟩, ⟨"b", .output, 4, .unsigned⟩]
    [[("a", 16)]] 0 [0x0B, 0x00, 0x0C]).1 "a" 4 16 false (by decide)

/-- Claim C8 counterexample: with the two-register schema a, b and only a
supplied (out of range, value 16), write_regs first performs the read-back:
READ_REQ is sent before the ValueOutOfRange failure, so transport I/O does
precede the rejection. -/
theorem c8_counterexample :
    (writeRegsRun [⟨"a", .output, 4, .unsigned⟩, ⟨"b", .output, 4, .unsigned⟩]
      [[("a", 16)]] 0 [0x0B, 0x00, 0x0C]).result = .error (.valueOutOfRange "a" 4 16 false) ∧
    (writeRegsRun [⟨"a", .output, 4, .unsigned⟩, ⟨"b", .output, 4, .unsigned⟩]
      [[("a", 16)]] 0 [0x0B, 0x00, 0x0C]).sent = [READ_REQ] ∧
    [READ_REQ] ≠ ([] : List Nat) := by decide

/-! Unknown names in the write mapping are ignored by write_regs; only the
command-line parser rejects them. -/

theorem dlookup_setKey (dct : Dict) (k n : String) (val : Int) :
    dlookup (setKey dct k val) n = if k = n then some val else dlookup dct n := by
  induction dct with
  | nil =>
    by_cases h2 : k = n <;> simp [setKey, dlookup, h2]
  | cons p rest ih =>
    obtain ⟨k1, v1⟩ := p
    by_cases h1 : k1 = k
    · subst h1
      by_cases h2 : k1 = n <;> simp [setKey, dlookup, h2]
    · by_cases h2 : k1 = n
      · subst h2
        have hkn : ¬ (k = k1) := fun hc => h1 hc.symm
        simp [setKey, dlookup, h1, hkn]
      · simp [setKey, dlookup, h1, h2, ih]

theorem foldAssign_two (f : String → Int) :
    ∀ (names : List String) (dA dB : Dict),
      names.foldl (fun h2 n => dictAssign h2 1 n (f n)) [dA, dB] =
        [dA, names.foldl (fun dd m => setKey dd m (f m)) dB] := by
  intro names
  induction names with
  | nil =>
    intro dA dB
    rfl
  | cons m rest ih =>
    intro dA dB
    rw [List.foldl_cons, List.foldl_cons]
    rw [show dictAssign [dA, dB] 1 m (f m) = [dA, setKey dB m (f m)] from rfl]
    exact ih dA (setKey dB m (f m))

theorem foldl_setKey_lookup (f : String → Int) :
    ∀ (names : List String) (d1 d2 : Dict) (n : String),
      dlookup d1 n = dlookup d2 n →
      dlookup (names.foldl (fun dd m => setKey dd m (f m)) d1) n =
        dlookup (names.foldl (fun dd m => setKey dd m (f m)) d2) n := by
  intro names
  induction names with
  | nil =>
    intro d1 d2 n h
    exact h
  | cons m rest ih =>
    intro d1 d2 n h
    rw [List.foldl_cons, List.foldl_cons]
    apply ih
    rw [dlookup_setKey, dlookup_setKey, h]

theorem buildBitsLoop_congr (d : RMode) (v1 v2 : String → Int) :
    ∀ l : List Reg, (∀ r ∈ l, r.mode = d → v1 r.name = v2 r.name) →
      buildBitsLoop d v1 l = buildBitsLoop d v2 l := by
  intro l
  induction l with
  | nil =>
    intro _
    rfl
  | cons r rest ih =>
    intro h
    have hrest := ih fun x hx hm => h x (List.mem_cons_of_mem _ hx) hm
    by_cases hm : r.mode = d
    · have hv := h r (List.mem_cons_self _ _) hm
      simp only [buildBitsLoop, if_pos hm, hv, hrest]
    · simp only [buildBitsLoop, if_neg hm, hrest]

theorem packOut_congr (rs : List Reg) (d : RMode) (v1 v2 : String → Int)
    (h : ∀ r ∈ rs, r.mode = d → v1 r.name = v2 r.name) :
    packOut rs d v1 = packOut rs d v2 := by
  unfold packOut
  rw [buildBitsLoop_congr d v1 v2 rs.reverse fun r hr hm => h r (List.mem_reverse.mp hr) hm]

/-- Heap-free characterization of the sent bytes and the result of a
write_regs call on a caller dict at a fresh singleton heap. -/
theorem writeRegsRun_singleton (rs : List Reg) (dct : Dict) (incoming : List Nat) :
    ((writeRegsRun rs [dct] 0 incoming).sent, (writeRegsRun rs [dct] 0 incoming).result) =
    (if ((rs.filter fun r => decide (r.mode = .output) && (dlookup dct r.name).isNone).map
        Reg.name).isEmpty then
      match packOut rs .output (fun n => (dlookup dct n).getD 0) with
      | .error e => (([] : List Nat), (Except.error e : Except Err Unit))
      | .ok bytes => (encodeFrame bytes, Except.ok ())
    else
      match readRegsRun rs incoming with
      | .error e => ([READ_REQ], Except.error e)
      | .ok current =>
        match packOut rs .output (fun n => (dlookup
            (@List.foldl Dict String
              (fun dd m => setKey dd m (((dlookup current m).getD 0 : Nat) : Int)) dct
              ((rs.filter fun r => decide (r.mode = .output) && (dlookup dct r.name).isNone).map
                Reg.name)) n).getD 0) with
        | .error e => ([READ_REQ], Except.error e)
        | .ok bytes => ([READ_REQ] ++ encodeFrame bytes, Except.ok ())) := by
  have h0 : heapGet [dct] 0 = dct := rfl
  have h1 : ([dct] : Heap) ++ [dct] = [dct, dct] := rfl
  have h2 : ([dct] : Heap).length = 1 := rfl
  have h3 : heapGet [dct, dct] 1 = dct := rfl
  have h5 : ∀ x : Dict, heapGet [dct, x] 1 = x := fun _ => rfl
  simp only [writeRegsRun, readBackMissing, dictCopy, h0, h1, h2, h3]
  by_cases hM : ((rs.filter fun r =>
      decide (r.mode = .output) && (dlookup dct r.name).isNone).map Reg.name).isEmpty = true
  · rw [if_pos hM, if_pos hM]
    dsimp only
    simp only [h3]
    split <;> rfl
  · rw [if_neg hM, if_neg hM]
    cases hR : readRegsRun rs incoming with
    | error e => rfl
    | ok current =>
      dsimp only
      rw [foldAssign_two (fun m => (((dlookup current m).getD 0 : Nat) : Int))]
      simp only [h5]
      split <;> rfl

theorem writeRegsRun_congr (rs : List Reg) (d1 d2 : Dict) (incoming : List Nat)
    (hagree : ∀ n ∈ outNames rs, dlookup d1 n = dlookup d2 n) :
    ((writeRegsRun rs [d1] 0 incoming).sent, (writeRegsRun rs [d1] 0 incoming).result) =
    ((writeRegsRun rs [d2] 0 incoming).sent, (writeRegsRun rs [d2] 0 incoming).result) := by
  have hfil : (rs.filter fun r => decide (r.mode = .output) && (dlookup d1 r.name).isNone) =
      (rs.filter fun r => decide (r.mode = .output) && (dlookup d2 r.name).isNone) := by
    apply List.filter_congr
    intro r hr
    by_cases hm : r.mode = .output
    · have hn : r.name ∈ outNames rs :=
        List.mem_map_of_mem Reg.name (List.mem_filter.mpr ⟨hr, by simp [hm]⟩)
      rw [hagree r.name hn]
    · simp [hm]
  have hvals : ∀ r ∈ rs, r.mode = .output →
      (dlookup d1 r.name).getD 0 = (dlookup d2 r.name).getD 0 := by
    intro r hr hm
    rw [hagree r.name (List.mem_map_of_mem Reg.name (List.mem_filter.mpr ⟨hr, by simp [hm]⟩))]
  have hpk1 : packOut rs .output (fun n => (dlookup d1 n).getD 0) =
      packOut rs .output (fun n => (dlookup d2 n).getD 0) :=
    packOut_congr rs .output _ _ hvals
  have hpk2 : ∀ current : List (String × Nat),
      packOut rs .output (fun n => (dlookup
        (@List.foldl Dict String
          (fun dd m => setKey dd m (((dlookup current m).getD 0 : Nat) : Int)) d1
          ((rs.filter fun r => decide (r.mode = .output) && (dlookup d2 r.name).isNone).map
            Reg.name)) n).getD 0) =
      packOut rs .output (fun n => (dlookup
        (@List.foldl Dict String
          (fun dd m => setKey dd m (((dlookup current m).getD 0 : Nat) : Int)) d2
          ((rs.filter fun r => decide (r.mode = .output) && (dlookup d2 r.name).isNone).map
            Reg.name)) n).getD 0) := by
    intro current
    apply packOut_congr
    intro r hr hm
    rw [foldl_setKey_lookup _ _ d1 d2 r.name
      (hagree r.name (List.mem_map_of_mem Reg.name (List.mem_filter.mpr ⟨hr, by simp [hm]⟩)))]
  rw [writeRegsRun_singleton rs d1 incoming, writeRegsRun_singleton rs d2 incoming, hfil,
    hpk1]
  simp only [hpk2]

/-- Claim C9 (amended): write_regs does not validate supplied names: an
entry whose name is not a declared out-direction register is silently
ignored (removing it changes neither the bytes sent nor the result); the
UnknownRegister rejection exists only in the command-line WriteAction
parser, which fails exactly when some supplied name is not an out-mode
register name, before any serial port is opened. -/
theorem c9_unknown_names :
    (∀ (rs : List Reg) (dct : Dict) (z : String) (v : Int) (incoming : List Nat),
      z ∉ outNames rs →
      (writeRegsRun rs [(z, v) :: dct] 0 incoming).sent =
        (writeRegsRun rs [dct] 0 incoming).sent ∧
      (writeRegsRun rs [(z, v) :: dct] 0 incoming).result =
        (writeRegsRun rs [dct] 0 incoming).result) ∧
    (∀ (rs : List Reg) (wv : Dict),
      cliValidateWriteNames rs wv = .ok () ↔ ∀ p ∈ wv, p.1 ∈ outNames rs) := by
  constructor
  · intro rs dct z v incoming hz
    have hagree : ∀ n ∈ outNames rs, dlookup ((z, v) :: dct) n = dlookup dct n := by
      intro n hn
      exact dlookup_cons_ne z n v dct fun hc => hz (by rw [hc]; exact hn)
    have hpair := writeRegsRun_congr rs ((z, v) :: dct) dct incoming hagree
    exact ⟨congrArg Prod.fst hpair, congrArg Prod.snd hpair⟩
  · intro rs wv
    induction wv with
    | nil => simp [cliValidateWriteNames]
    | cons p rest ih =>
      obtain ⟨n, v⟩ := p
      by_cases hn : n ∈ outNames rs
      · simp [cliValidateWriteNames, hn, ih]
      · simp [cliValidateWriteNames, hn]

theorem c9_unknown_names_witness :
    (writeRegsRun [⟨"a", .output, 1, .stdLogic⟩] [[("zzz", 5), ("a", 1)]] 0 []).sent =
      (writeRegsRun [⟨"a", .output, 1, .stdLogic⟩] [[("a", 1)]] 0 []).sent ∧
    (writeRegsRun [⟨"a", .output, 1, .stdLogic⟩] [[("zzz", 5), ("a", 1)]] 0 []).result =
      (writeRegsRun [⟨"a", .output, 1, .stdLogic⟩] [[("a", 1)]] 0 []).result :=
  c9_unknown_names.1 [⟨"a", .output, 1, .stdLogic⟩] [("a", 1)] "zzz" 5 [] (by decide)

/-- Claim C9 counterexample: calling write_regs with the extra entry
zzz = 5, which is not a declared register, does not fail at all: the write
succeeds and the frame is transmitted, the unknown name silently ignored. -/
theorem c9_counterexample :
    (writeRegsRun [⟨"a", .output, 1, .stdLogic⟩] [[("a", 1), ("zzz", 5)]] 0 []).result =
      .ok () ∧
    (writeRegsRun [⟨"a", .output, 1, .stdLogic⟩] [[("a", 1), ("zzz", 5)]] 0 []).sent ≠ [] := by
  decide
